import Mathlib

/-!
Verification of the VIRTUFS virtual file-system simulator: a shallow embedding
of the in-memory node tree, the permission model, the mutation operations, the
snapshot manager and the terminal command handlers, together with theorems
about the behaviours the design document describes.

All definitions are translated from the JavaScript source (`VirtualFileSystem`
class).  Time stamps (`Date.now()`), generated identifiers (`generateId()`) and
random draws (`Math.random()`) are injected as explicit parameters, `Math.random()`
values being modelled as exact rationals in `[0, 1)`.
-/

namespace VFS

/-- The permission triples of a node: `permissions.owner/group/others`,
each a string such as `"rwx"` or `"r--"`. -/
structure Perms where
  owner : String
  group : String
  others : String
deriving DecidableEq, Repr

/-- The scalar fields every node carries (`id`, `name`, `owner`,
`permissions`, `size`, `createdAt`, `modifiedAt`, `corrupted`). -/
structure Meta where
  id : String
  name : String
  owner : String
  perms : Perms
  size : Nat
  createdAt : Nat
  modifiedAt : Nat
  corrupted : Bool
deriving DecidableEq, Repr

/-- A file-system node: a file with `content`, or a folder with `children`. -/
inductive Node : Type where
  | file (m : Meta) (content : String)
  | folder (m : Meta) (children : List Node)
deriving Repr

/-- The scalar fields of a node. -/
def Node.meta : Node → Meta
  | .file m _ => m
  | .folder m _ => m

def Node.id (n : Node) : String := n.meta.id

def Node.name (n : Node) : String := n.meta.name

def Node.owner (n : Node) : String := n.meta.owner

def Node.perms (n : Node) : Perms := n.meta.perms

def Node.size (n : Node) : Nat := n.meta.size

def Node.corrupted (n : Node) : Bool := n.meta.corrupted

def Node.isFolder : Node → Bool
  | .file _ _ => false
  | .folder _ _ => true

def Node.isFile : Node → Bool
  | .file _ _ => true
  | .folder _ _ => false

/-- `node.children` for a folder, `[]` for a file (a file has no
`children` field in the source). -/
def Node.childrenD : Node → List Node
  | .file _ _ => []
  | .folder _ cs => cs

/-- `node.content` for a file, `""` for a folder (a folder has no
`content` field in the source). -/
def Node.contentD : Node → String
  | .file _ c => c
  | .folder _ _ => ""

/-- Sum of the stored `size` fields of a list of nodes. -/
def sumSizes (cs : List Node) : Nat := (cs.map Node.size).sum

mutual

/-- `updateFolderSize(node)`: for files does nothing; for folders recursively
recomputes every folder size in the subtree, bottom-up, and stores it. -/
def updateFolderSize : Node → Node
  | .file m c => .file m c
  | .folder m cs =>
    let cs' := updateChildren cs
    .folder { m with size := sumSizes cs' } cs'

/-- The child-list part of `updateFolderSize`. -/
def updateChildren : List Node → List Node
  | [] => []
  | c :: cs => updateFolderSize c :: updateChildren cs

end

mutual

/-- Does every folder in the subtree store exactly the sum of its children's
sizes?  This is the size invariant of the design document. -/
def sizeOk : Node → Bool
  | .file _ _ => true
  | .folder m cs => (m.size == sumSizes cs) && allSizeOk cs

/-- `sizeOk` for every node of a list. -/
def allSizeOk : List Node → Bool
  | [] => true
  | c :: cs => sizeOk c && allSizeOk cs

end

mutual

/-- `getAllNodes(node)`: pre-order listing of the subtree (self before
children). -/
def getAllNodes : Node → List Node
  | .file m c => [.file m c]
  | .folder m cs => .folder m cs :: getAllNodesL cs

/-- `getAllNodes` over a child list. -/
def getAllNodesL : List Node → List Node
  | [] => []
  | c :: cs => getAllNodes c ++ getAllNodesL cs

end

/-- `str.split(sep)` for a single-character separator: cut the character
list at every separator occurrence. -/
def splitChar (sep : Char) : List Char → List String
  | [] => [""]
  | c :: cs =>
    if c = sep then "" :: splitChar sep cs
    else
      match splitChar sep cs with
      | [] => [String.mk [c]]
      | s :: rest => String.mk (c :: s.toList) :: rest

/-- Split a path string into its non-empty `/`-separated segments, as
`path.split('/').filter(p => p)` does. -/
def splitPath (path : String) : List String :=
  (splitChar '/' path.toList).filter (fun p => p ≠ "")

/-- `str.trim()`: strip whitespace from both ends. -/
def jsTrim (s : String) : String :=
  String.mk (((s.toList.dropWhile Char.isWhitespace).reverse.dropWhile
    Char.isWhitespace).reverse)

/-- `str.startsWith('/')`. -/
def startsWithSlash (s : String) : Bool :=
  match s.toList with
  | c :: _ => c = '/'
  | [] => false

/-- `str.includes(ch)` for one character. -/
def strContains (s : String) (c : Char) : Bool :=
  s.toList.contains c

/-- `parts.join('/')`. -/
def joinSegs : List String → String
  | [] => ""
  | [a] => a
  | a :: rest => a ++ "/" ++ joinSegs rest

/-- The walk inside `getNodeByPath`: follow the segments from the given node,
matching each segment against the first child with that name; walking into a
file with segments remaining fails. -/
def walkPath : List String → Node → Option Node
  | [], n => some n
  | _ :: _, .file _ _ => none
  | p :: ps, .folder _ cs =>
    match cs.find? (fun c => c.name == p) with
    | none => none
    | some c => walkPath ps c

/-- `getNodeByPath(path)`. -/
def getNodeByPath (t : Node) (path : String) : Option Node :=
  walkPath (splitPath path) t

/-- Rewrite the first child named `p` of a list with `g`, leaving the rest
unchanged (the `find`-by-name convention of the source). -/
def modifyFirst (p : String) (g : Node → Node) : List Node → List Node
  | [] => []
  | c :: cs => if c.name == p then g c :: cs else c :: modifyFirst p g cs

/-- Apply `f` to the node reached by walking the given segments (the pure
counterpart of mutating the object `getNodeByPath` returned); an unmatched
segment leaves the tree unchanged. -/
def modifyAtPath : List String → (Node → Node) → Node → Node
  | [], f, n => f n
  | _ :: _, _, .file m c => .file m c
  | p :: ps, f, .folder m cs => .folder m (modifyFirst p (modifyAtPath ps f) cs)

mutual

/-- Structural equality test on nodes. -/
def nodeBEq : Node → Node → Bool
  | .file m c, .file m' c' => m == m' && c == c'
  | .folder m cs, .folder m' cs' => m == m' && nodesBEq cs cs'
  | _, _ => false

/-- Structural equality test on node lists. -/
def nodesBEq : List Node → List Node → Bool
  | [], [] => true
  | c :: cs, c' :: cs' => nodeBEq c c' && nodesBEq cs cs'
  | _, _ => false

end

mutual

theorem nodeBEq_iff : ∀ a b, nodeBEq a b = true ↔ a = b
  | .file _ _, .file _ _ => by simp [nodeBEq]
  | .file _ _, .folder _ _ => by simp [nodeBEq]
  | .folder _ _, .file _ _ => by simp [nodeBEq]
  | .folder _ cs, .folder _ cs' => by simp [nodeBEq, nodesBEq_iff cs cs']

theorem nodesBEq_iff : ∀ as bs, nodesBEq as bs = true ↔ as = bs
  | [], [] => by simp [nodesBEq]
  | [], _ :: _ => by simp [nodesBEq]
  | _ :: _, [] => by simp [nodesBEq]
  | a :: as, b :: bs => by simp [nodesBEq, nodeBEq_iff a b, nodesBEq_iff as bs]

end

instance : DecidableEq Node := fun a b => decidable_of_iff _ (nodeBEq_iff a b)

/-! ## Permission model -/

/-- The operation argument of `checkPermission`: `'read'`, `'write'` or
`'execute'`. -/
inductive POp : Type where
  | read
  | write
  | execute
deriving DecidableEq, Repr

/-- `checkPermission(node, operation)`: admin mode always succeeds; otherwise
the triple is chosen from the current user's relation to `node.owner`
(`admin` and `user` are the privileged roles reading the group triple) and the
requested letter is looked up in it. -/
def checkPermission (adminMode : Bool) (currentUser : String) (node : Node)
    (operation : POp) : Bool :=
  if adminMode then true
  else
    let permissionSet :=
      if currentUser == node.owner then node.perms.owner
      else if currentUser == "admin" || currentUser == "user" then node.perms.group
      else node.perms.others
    match operation with
    | .read => strContains permissionSet 'r'
    | .write => strContains permissionSet 'w'
    | .execute => strContains permissionSet 'x'

/-! ## Node creation and content size -/

/-- The `type` argument of `createNode`. -/
inductive NKind : Type where
  | file
  | folder
deriving DecidableEq, Repr

/-- `createNode(name, type, owner, permissions)`: fresh id and times are
injected; a folder starts with size `0` and no children, a file with the
default size `100` and empty content. -/
def createNode (name : String) (kind : NKind) (owner : String) (perms : Perms)
    (freshId : String) (now : Nat) : Node :=
  let m : Meta :=
    { id := freshId, name := name, owner := owner, perms := perms
      size := match kind with | .folder => 0 | .file => 100
      createdAt := now, modifiedAt := now, corrupted := false }
  match kind with
  | .folder => .folder m []
  | .file => .file m ""

/-- `calculateSize(content)`: `0` for empty content, otherwise the UTF-8 byte
length (`new Blob([content]).size`). -/
def calculateSize (content : String) : Nat :=
  if content == "" then 0 else content.utf8ByteSize

/-- Rewrite the scalar fields of a node. -/
def Node.withMeta (f : Meta → Meta) : Node → Node
  | .file m c => .file (f m) c
  | .folder m cs => .folder (f m) cs

/-- Store `content` in a file and set `size = calculateSize(content)` as
`createNewFile` does for a non-empty content. -/
def setContentAndSize (content : String) : Node → Node
  | .file m _ => .file { m with size := calculateSize content } content
  | .folder m cs => .folder m cs

/-- `node.modifiedAt = Date.now()`. -/
def setMTime (now : Nat) (n : Node) : Node :=
  n.withMeta (fun m => { m with modifiedAt := now })

/-- Append a child, stamp the folder's `modifiedAt` and rerun
`updateFolderSize` on it, as every creating operation does. -/
def pushChildAndSize (c : Node) (now : Nat) : Node → Node
  | .folder m cs => updateFolderSize (.folder { m with modifiedAt := now } (cs ++ [c]))
  | .file m co => .file m co

/-- Remove the first child with the given id (the `findIndex`/`splice` pair of
the source). -/
def eraseFirstId (i : String) : List Node → List Node
  | [] => []
  | c :: cs => if c.id == i then cs else c :: eraseFirstId i cs

/-- Splice the child with the given id out of a folder, stamp `modifiedAt`
and rerun `updateFolderSize`, as `deleteItem`, `terminalRM` and the move
branch of `pasteItem` do. -/
def removeChildByIdAndSize (i : String) (now : Nat) : Node → Node
  | .folder m cs => updateFolderSize (.folder { m with modifiedAt := now } (eraseFirstId i cs))
  | .file m co => .file m co

/-! ## Path strings -/

/-- Index of the last occurrence of a character, `lastIndexOf` style. -/
def lastIdxOf (c : Char) : List Char → Option Nat
  | [] => none
  | a :: as =>
    match lastIdxOf c as with
    | some i => some (i + 1)
    | none => if a == c then some 0 else none

/-- `path.substring(0, path.lastIndexOf('/'))`, the parent-path idiom used
throughout the source (yielding `""` when no slash occurs). -/
def jsParentPath (path : String) : String :=
  match lastIdxOf '/' path.toList with
  | none => ""
  | some i => String.mk (path.toList.take i)

/-- Join a relative segment onto the current path, as the terminal commands
do: `currentPath === '/' ? '/'+p : currentPath+'/'+p`. -/
def joinPath (cur p : String) : String :=
  if cur == "/" then "/" ++ p else cur ++ "/" ++ p

/-- Absolute arguments are taken as-is, relative ones joined to the current
path (`cat`, `rm` and `chmod` all share this resolution). -/
def resolveArg (cur p : String) : String :=
  if startsWithSlash p then p else joinPath cur p

/-! ## Name disambiguation -/

/-- The `counter`-th candidate name: the counter in parentheses is inserted
before the last dot, or appended when the name has no extension. -/
def candName (base : String) (k : Nat) : String :=
  match lastIdxOf '.' base.toList with
  | none => base ++ " (" ++ toString k ++ ")"
  | some i =>
    String.mk (base.toList.take i) ++ " (" ++ toString k ++ ")" ++
      String.mk (base.toList.drop i)

/-- The candidate the disambiguation loop tries at counter `k`: the base
name itself first, then the counter names. -/
def gunCand (base : String) (k : Nat) : String :=
  if k == 0 then base else candName base k

/-- The `while`-loop of `generateUniqueName`, with explicit fuel: the first
candidate not present in `names` is returned. -/
def gunGo (names : List String) (base : String) : Nat → Nat → String
  | 0, k => gunCand base k
  | fuel + 1, k =>
    if names.contains (gunCand base k) then gunGo names base fuel (k + 1)
    else gunCand base k

/-- `generateUniqueName(destNode, baseName)` over the destination's children
(fuel `children.length + 1` covers more candidates than there are children,
so the loop always exits at an unused candidate). -/
def generateUniqueName (children : List Node) (base : String) : String :=
  gunGo (children.map Node.name) base (children.length + 1) 0

/-! ## Operation results and session state -/

/-- The failure taxonomy of the design document, plus the source's empty-name
check, usage responses and the `rm` fallthrough message. -/
inductive OpError : Type where
  | permissionDenied
  | nameConflict
  | notFound
  | notAFolder
  | rootProtected
  | invalidMode
  | noClipboard
  | noSnapshot
  | emptyName
  | usage
  | cannotRemove
deriving DecidableEq, Repr

/-- Outcome of an operation: a display/response string, or a refused
mutation with its reason. -/
inductive OpResult : Type where
  | ok (msg : String)
  | err (e : OpError)
deriving DecidableEq, Repr

/-- Is the outcome a failure? -/
def OpResult.isErr : OpResult → Bool
  | .ok _ => false
  | .err _ => true

/-- Clipboard mode: `'copy'` or `'move'`. -/
inductive ClipAction : Type where
  | copy
  | move
deriving DecidableEq, Repr

/-- The single-slot clipboard: `{action, node, sourcePath}`. -/
structure Clipboard where
  action : ClipAction
  node : Node
  sourcePath : String
deriving DecidableEq, Repr

/-- A snapshot entry: `{id, name, timestamp, data}`. -/
structure Snapshot where
  sid : Nat
  sname : String
  timestamp : Nat
  data : Node
deriving DecidableEq, Repr

/-- The mutable session state of the `VirtualFileSystem` instance that the
core operations read and write. -/
structure State where
  tree : Node
  currentUser : String
  adminMode : Bool
  currentPath : String
  selectedItem : Option String
  clipboard : Option Clipboard
  snapshots : List Snapshot
deriving DecidableEq, Repr

/-! ## Explorer operations -/

/-- `createNewFile()`: empty-name check, sibling-name conflict, write
permission on the current directory, then a fresh `rw-r--r--` file is pushed;
a non-empty content is stored with its computed size, an empty one leaves the
`createNode` defaults (size `100`, content `""`). -/
def createNewFile (s : State) (rawName content freshId : String) (now : Nat) :
    State × OpResult :=
  let name := jsTrim rawName
  if name == "" then (s, .err .emptyName)
  else
    match getNodeByPath s.tree s.currentPath with
    | some (.folder m cs) =>
      if cs.any (fun c => c.name == name) then (s, .err .nameConflict)
      else if ! checkPermission s.adminMode s.currentUser (.folder m cs) .write then
        (s, .err .permissionDenied)
      else
        let file0 := createNode name .file s.currentUser ⟨"rw-", "r--", "r--"⟩ freshId now
        let file1 := if content != "" then setContentAndSize content file0 else file0
        let t' := modifyAtPath (splitPath s.currentPath) (pushChildAndSize file1 now) s.tree
        ({ s with tree := t' }, .ok "")
    | _ => (s, .err .notFound)

/-- `renameSelectedItem()`: renames the node at `selectedItem` after the
write-permission and sibling-conflict checks. -/
def renameSelectedItem (s : State) (rawNewName : String) (now : Nat) :
    State × OpResult :=
  let newName := jsTrim rawNewName
  if newName == "" then (s, .err .emptyName)
  else
    match s.selectedItem with
    | none => (s, .err .notFound)
    | some path =>
      match getNodeByPath s.tree path, getNodeByPath s.tree (jsParentPath path) with
      | some node, some parent =>
        if ! checkPermission s.adminMode s.currentUser node .write then
          (s, .err .permissionDenied)
        else if parent.childrenD.any (fun c => c.name == newName && c.id != node.id) then
          (s, .err .nameConflict)
        else
          let t' := modifyAtPath (splitPath path)
            (Node.withMeta (fun m => { m with name := newName, modifiedAt := now })) s.tree
          ({ s with tree := t' }, .ok "")
      | _, _ => (s, .err .notFound)

/-- `deleteItem(path)` (confirmation dialog answered yes): refuses the node
with id `'root'`, requires write permission on the parent, then splices the
node out and recomputes the parent's sizes. -/
def deleteItem (s : State) (path : String) (now : Nat) : State × OpResult :=
  match getNodeByPath s.tree path with
  | none => (s, .err .notFound)
  | some node =>
    if node.id == "root" then (s, .err .rootProtected)
    else
      let parentPath := jsParentPath path
      match getNodeByPath s.tree parentPath with
      | none => (s, .err .permissionDenied)
      | some parent =>
        if ! checkPermission s.adminMode s.currentUser parent .write then
          (s, .err .permissionDenied)
        else if parent.childrenD.any (fun c => c.id == node.id) then
          ({ s with
              tree := modifyAtPath (splitPath parentPath)
                (removeChildByIdAndSize node.id now) s.tree
              selectedItem := none }, .ok "")
        else (s, .err .cannotRemove)

/-- `copyItem(path)`: read permission, then the clipboard holds a deep copy
of the subtree (a value in this embedding) plus the source path. -/
def copyItem (s : State) (path : String) : State × OpResult :=
  match getNodeByPath s.tree path with
  | none => (s, .err .notFound)
  | some node =>
    if ! checkPermission s.adminMode s.currentUser node .read then
      (s, .err .permissionDenied)
    else
      ({ s with clipboard := some ⟨.copy, node, path⟩ }, .ok "")

/-- `moveItem(path)`: write permission on the parent, then the clipboard
holds the node and its source path; the tree is untouched until paste. -/
def moveItem (s : State) (path : String) : State × OpResult :=
  match getNodeByPath s.tree path with
  | none => (s, .err .notFound)
  | some node =>
    match getNodeByPath s.tree (jsParentPath path) with
    | none => (s, .err .permissionDenied)
    | some parent =>
      if ! checkPermission s.adminMode s.currentUser parent .write then
        (s, .err .permissionDenied)
      else
        ({ s with clipboard := some ⟨.move, node, path⟩ }, .ok "")

/-- `pasteItem(destinationPath)`: requires a clipboard, a folder destination
and write permission there.  Copy inserts a fresh-id copy under a
disambiguated name; move first splices the node from its source parent, then
inserts it (under the post-removal disambiguated name) and updates
`selectedItem` when it pointed at the source. -/
def pasteItem (s : State) (destPath freshId : String) (now : Nat) :
    State × OpResult :=
  match s.clipboard with
  | none => (s, .err .noClipboard)
  | some cb =>
    match getNodeByPath s.tree destPath with
    | none => (s, .err .notAFolder)
    | some dest =>
      if ! dest.isFolder then (s, .err .notAFolder)
      else if ! checkPermission s.adminMode s.currentUser dest .write then
        (s, .err .permissionDenied)
      else
        match cb.action with
        | .copy =>
          let newName := generateUniqueName dest.childrenD cb.node.name
          let newNode := cb.node.withMeta (fun m => { m with id := freshId, name := newName })
          ({ s with
              tree := modifyAtPath (splitPath destPath) (pushChildAndSize newNode now) s.tree
              clipboard := none }, .ok "")
        | .move =>
          let sourceParentPath := jsParentPath cb.sourcePath
          let t1 :=
            match getNodeByPath s.tree sourceParentPath with
            | some sp =>
              if sp.childrenD.any (fun c => c.id == cb.node.id) then
                modifyAtPath (splitPath sourceParentPath)
                  (removeChildByIdAndSize cb.node.id now) s.tree
              else s.tree
            | none => s.tree
          match getNodeByPath t1 destPath with
          | some d2 =>
            let nm := generateUniqueName d2.childrenD cb.node.name
            let moved := cb.node.withMeta (fun m => { m with name := nm })
            ({ s with
                tree := modifyAtPath (splitPath destPath) (pushChildAndSize moved now) t1
                clipboard := none
                selectedItem :=
                  if s.selectedItem == some cb.sourcePath then
                    some (destPath ++ "/" ++ nm)
                  else s.selectedItem }, .ok "")
          | none => ({ s with tree := t1, clipboard := none }, .ok "")

/-! ## Terminal commands -/

/-- The path the `cd` command resolves its argument to: `/` and `..` are
special, absolute arguments are kept, relative ones joined to the current
path. -/
def cdResolve (cur p : String) : String :=
  if p == "/" then "/"
  else if p == ".." then
    if cur == "/" then "/"
    else
      let parts := splitPath cur
      "/" ++ joinSegs parts.dropLast
  else if startsWithSlash p then p
  else joinPath cur p

/-- `terminalCD(path)`: fails closed — the current path only changes when
the resolved target exists, is a folder and grants execute permission. -/
def terminalCD (s : State) (arg : Option String) : State × OpResult :=
  match arg with
  | none => (s, .err .usage)
  | some p =>
    let newPath := cdResolve s.currentPath p
    match getNodeByPath s.tree newPath with
    | none => (s, .err .notFound)
    | some n =>
      if ! n.isFolder then (s, .err .notAFolder)
      else if ! checkPermission s.adminMode s.currentUser n .execute then
        (s, .err .permissionDenied)
      else ({ s with currentPath := newPath }, .ok "")

/-- Stamp the modified time of the first child with the given name, as
`touch` does on an existing file. -/
def touchChild (p : String) (now : Nat) : Node → Node
  | .folder m cs => .folder m (modifyFirst p (setMTime now) cs)
  | .file m c => .file m c

/-- `terminalTOUCH(path)`: write permission on the current directory; an
existing sibling only gets a new modified time, otherwise a fresh default
file (`createNode`: size `100`, empty content) is pushed and the directory's
sizes recomputed. -/
def terminalTOUCH (s : State) (arg : Option String) (freshId : String) (now : Nat) :
    State × OpResult :=
  match arg with
  | none => (s, .err .usage)
  | some p =>
    match getNodeByPath s.tree s.currentPath with
    | some (.folder m cs) =>
      if ! checkPermission s.adminMode s.currentUser (.folder m cs) .write then
        (s, .err .permissionDenied)
      else
        match cs.find? (fun c => c.name == p) with
        | some _ =>
          let t' := modifyAtPath (splitPath s.currentPath) (touchChild p now) s.tree
          ({ s with tree := t' }, .ok "")
        | none =>
          let file0 := createNode p .file s.currentUser ⟨"rw-", "r--", "r--"⟩ freshId now
          let t' := modifyAtPath (splitPath s.currentPath) (pushChildAndSize file0 now) s.tree
          ({ s with tree := t' }, .ok "")
    | _ => (s, .err .notFound)

/-- `terminalMKDIR(path)`: write permission first, then the sibling-name
check, then a fresh `rwxr-xr--` folder is pushed. -/
def terminalMKDIR (s : State) (arg : Option String) (freshId : String) (now : Nat) :
    State × OpResult :=
  match arg with
  | none => (s, .err .usage)
  | some p =>
    match getNodeByPath s.tree s.currentPath with
    | some (.folder m cs) =>
      if ! checkPermission s.adminMode s.currentUser (.folder m cs) .write then
        (s, .err .permissionDenied)
      else if cs.any (fun c => c.name == p) then (s, .err .nameConflict)
      else
        let folder0 := createNode p .folder s.currentUser ⟨"rwx", "r-x", "r--"⟩ freshId now
        let t' := modifyAtPath (splitPath s.currentPath) (pushChildAndSize folder0 now) s.tree
        ({ s with tree := t' }, .ok "")
    | _ => (s, .err .notFound)

/-- `terminalRM(path)`: resolves the argument, requires write permission on
the parent, and splices the node out of it; when the parent does not list
the node's id (as for `rm /`) the command reports `Cannot remove`. -/
def terminalRM (s : State) (arg : Option String) (now : Nat) : State × OpResult :=
  match arg with
  | none => (s, .err .usage)
  | some p =>
    let filePath := resolveArg s.currentPath p
    match getNodeByPath s.tree filePath with
    | none => (s, .err .notFound)
    | some node =>
      let parentPath := jsParentPath filePath
      match getNodeByPath s.tree parentPath with
      | none => (s, .err .permissionDenied)
      | some parent =>
        if ! checkPermission s.adminMode s.currentUser parent .write then
          (s, .err .permissionDenied)
        else if parent.childrenD.any (fun c => c.id == node.id) then
          let t' := modifyAtPath (splitPath parentPath)
            (removeChildByIdAndSize node.id now) s.tree
          ({ s with tree := t' }, .ok "")
        else (s, .err .cannotRemove)

/-- `parseModeDigit(digit)`: octal digit to an `rwx` letter string. -/
def parseModeDigit (d : Nat) : String :=
  (if d &&& 4 ≠ 0 then "r" else "-") ++
    (if d &&& 2 ≠ 0 then "w" else "-") ++
      (if d &&& 1 ≠ 0 then "x" else "-")

/-- Is the character an octal digit? -/
def isOctalDigit (c : Char) : Bool := '0' ≤ c && c ≤ '7'

/-- The numeric value of a digit character. -/
def digitVal (c : Char) : Nat := c.toNat - '0'.toNat

/-- `terminalCHMOD(mode, path)`: only the owner or admin mode may change
permissions; the mode must match `/^[0-7]{3}$/`, and each digit becomes one
triple. -/
def terminalCHMOD (s : State) (modeArg pathArg : Option String) (now : Nat) :
    State × OpResult :=
  match modeArg, pathArg with
  | some mode, some p =>
    let filePath := resolveArg s.currentPath p
    match getNodeByPath s.tree filePath with
    | none => (s, .err .notFound)
    | some node =>
      if node.owner != s.currentUser && ! s.adminMode then (s, .err .permissionDenied)
      else
        match mode.toList with
        | [a, b, c] =>
          if isOctalDigit a && isOctalDigit b && isOctalDigit c then
            let perms : Perms :=
              ⟨parseModeDigit (digitVal a), parseModeDigit (digitVal b),
                parseModeDigit (digitVal c)⟩
            let t' := modifyAtPath (splitPath filePath)
              (Node.withMeta (fun m => { m with perms := perms, modifiedAt := now })) s.tree
            ({ s with tree := t' }, .ok "")
          else (s, .err .invalidMode)
        | _ => (s, .err .invalidMode)
  | _, _ => (s, .err .usage)

/-! ## Snapshots -/

/-- `createSnapshot()`: a deep copy of the tree is prepended to the history;
beyond five entries the oldest is evicted. -/
def createSnapshot (s : State) (now : Nat) (nm : String) : State :=
  let l : List Snapshot := ⟨now, nm, now, s.tree⟩ :: s.snapshots
  { s with snapshots := if l.length > 5 then l.dropLast else l }

/-- `restoreSnapshot()` (confirmation answered yes): replaces the live tree
with a deep copy of the most recent snapshot's data, or reports that no
snapshot exists. -/
def restoreSnapshot (s : State) : State × OpResult :=
  match s.snapshots with
  | [] => (s, .err .noSnapshot)
  | sn :: _ => ({ s with tree := sn.data }, .ok "")

/-! ## In-place mutation by node identity

`corruptRandomItems` and `startRepair` mutate node objects found by a
traversal, not by path; the pure counterpart rewrites or splices the first
pre-order occurrence of the node's id. -/

mutual

/-- Replace the first pre-order node with the given id by `r`; the flag
reports whether a node was found. -/
def replaceByIdN (i : String) (r : Node) : Node → Node × Bool
  | .file m c => if m.id == i then (r, true) else (.file m c, false)
  | .folder m cs =>
    if m.id == i then (r, true)
    else
      let p := replaceByIdL i r cs
      (.folder m p.1, p.2)

/-- `replaceByIdN` over a child list, left to right. -/
def replaceByIdL (i : String) (r : Node) : List Node → List Node × Bool
  | [] => ([], false)
  | c :: cs =>
    match replaceByIdN i r c with
    | (c', true) => (c' :: cs, true)
    | (_, false) =>
      let p := replaceByIdL i r cs
      (c :: p.1, p.2)

end

mutual

/-- Splice out the first pre-order node with the given id (found in the
order `findParent` searches: a child is checked before its own subtree is
explored, and a whole subtree before the next sibling). -/
def removeByIdN (i : String) : Node → Node × Bool
  | .file m c => (.file m c, false)
  | .folder m cs =>
    let p := removeByIdL i cs
    (.folder m p.1, p.2)

/-- `removeByIdN` over a child list. -/
def removeByIdL (i : String) : List Node → List Node × Bool
  | [] => ([], false)
  | c :: cs =>
    if c.id == i then (cs, true)
    else
      match removeByIdN i c with
      | (c', true) => (c' :: cs, true)
      | (_, false) =>
        let p := removeByIdL i cs
        (c :: p.1, p.2)

end

mutual

/-- First pre-order node with the given id, in exactly the search order of
`replaceByIdN` (a node before its children, a child subtree before the next
sibling). -/
def findById (i : String) : Node → Option Node
  | .file m c => if m.id == i then some (.file m c) else none
  | .folder m cs => if m.id == i then some (.folder m cs) else findByIdL i cs

/-- `findById` over a child list, left to right. -/
def findByIdL (i : String) : List Node → Option Node
  | [] => none
  | c :: cs =>
    match findById i c with
    | some x => some x
    | none => findByIdL i cs

end

/-! ## Random corruption -/

/-- The random draws `corruptRandomItems` consumes, injected: the count draw,
the per-iteration pool index draw, and per selected file the corruption-level
draw (a `Math.random()` value) and the position/character draws of each
byte-replacement step. -/
structure CorruptRng where
  countPick : Nat
  indexPick : Nat → Nat
  levelPick : Nat → ℚ
  posPick : Nat → Nat → Nat
  charPick : Nat → Nat → Nat

/-- `0.2 + Math.random() * 0.3`. -/
def corruptLevel (r : ℚ) : ℚ := 1 / 5 + r * (3 / 10)

/-- `Math.floor(contentArray.length * corruptionLevel)`: how many
byte-replacement steps run on a content of the given length. -/
def corruptOpsCount (level : ℚ) (len : Nat) : Nat :=
  (((len : ℚ) * level).floor).toNat

/-- The byte-replacement loop: each step overwrites a drawn position with a
drawn character code below 256. -/
def applyCorruptOps (posPick charPick : Nat → Nat) (len : Nat) :
    Nat → Nat → List Char → List Char
  | _, 0, arr => arr
  | j, rem + 1, arr =>
    applyCorruptOps posPick charPick len (j + 1) rem
      (arr.set (posPick j % len) (Char.ofNat (charPick j % 256)))

/-- Corrupt a content string: `floor(length * level)` positions are
overwritten with random characters. -/
def corruptContent (level : ℚ) (posPick charPick : Nat → Nat) (s : String) : String :=
  let arr := s.toList
  let k := corruptOpsCount level arr.length
  String.mk (applyCorruptOps posPick charPick arr.length 0 k arr)

/-- Corrupt one selected node (iteration `i`): the flag is set, and a
non-empty file content is run through `corruptContent`. -/
def corruptOneFile (rng : CorruptRng) (i : Nat) : Node → Node
  | .file m c =>
    let c' :=
      if c == "" then c
      else corruptContent (corruptLevel (rng.levelPick i)) (rng.posPick i) (rng.charPick i) c
    .file { m with corrupted := true } c'
  | .folder m cs => .folder { m with corrupted := true } cs

/-- The selection loop of `corruptRandomItems`: each iteration draws an index
into the remaining pool, corrupts that node in the tree, and splices it out
of the pool; the selected nodes are returned in order. -/
def corruptLoop (rng : CorruptRng) : Nat → Nat → List Node → Node → Node × List Node
  | 0, _, _, t => (t, [])
  | _ + 1, _, [], t => (t, [])
  | k + 1, i, c :: cs, t =>
    let pool := c :: cs
    let idx := rng.indexPick i % pool.length
    let n := pool.getD idx c
    let t' := (replaceByIdN n.id (corruptOneFile rng i n) t).1
    let rest := corruptLoop rng k (i + 1) (pool.eraseIdx idx) t'
    (rest.1, n :: rest.2)

/-- What `corruptRandomItems` reports: the warning toast when no uncorrupted
file exists, or the names of the corrupted files. -/
inductive CorruptReport : Type where
  | noFiles
  | corrupted (names : List String)
deriving DecidableEq, Repr

/-- The uncorrupted files of the tree, in `getAllNodes` order — the
selection pool. -/
def uncorruptedFiles (t : Node) : List Node :=
  (getAllNodes t).filter (fun n => n.isFile && ! n.corrupted)

/-- `corruptRandomItems()`: a no-op report when no uncorrupted file exists;
otherwise `min(floor(random*3)+1, pool.length)` distinct pool entries are
corrupted. -/
def corruptRandomItems (rng : CorruptRng) (t : Node) : Node × CorruptReport :=
  let pool := uncorruptedFiles t
  if pool.isEmpty then (t, .noFiles)
  else
    let num := min (rng.countPick % 3 + 1) pool.length
    let r := corruptLoop rng num 0 pool t
    (r.1, .corrupted (r.2.map Node.name))

/-- The list of nodes `corruptRandomItems` selects (second component of the
same loop). -/
def corruptSel (rng : CorruptRng) (t : Node) : List Node :=
  (corruptLoop rng (min (rng.countPick % 3 + 1) (uncorruptedFiles t).length) 0
    (uncorruptedFiles t) t).2

/-! ## Repair -/

/-- The characters `/[^\x20-\x7E\n\r\t]/` does not match — the ones repair
keeps. -/
def isPrintableKeep (c : Char) : Bool :=
  (' ' ≤ c && c ≤ '~') || c == '\n' || c == '\r' || c == '\t'

/-- Successful repair of a file: the corruption flag is cleared and every
non-printable character replaced by the placeholder glyph. -/
def repairFile : Node → Node
  | .file m c =>
    .file { m with corrupted := false }
      (String.mk (c.toList.map (fun ch => if isPrintableKeep ch then ch else '█')))
  | .folder m cs => .folder { m with corrupted := false } cs

/-- One repair step on one corrupted node: with a favourable coin a file is
repaired in place; otherwise the node is spliced out of its parent
(`findParent` returns no parent for the root itself, which is then left
alone). -/
def repairOne (coin : Bool) (n : Node) (t : Node) : Node :=
  if coin && n.isFile then (replaceByIdN n.id (repairFile n) t).1
  else if t.id == n.id then t
  else (removeByIdN n.id t).1

/-- The repair loop over the corrupted nodes collected up front. -/
def repairGo (coins : Nat → Bool) : Nat → List Node → Node → Node
  | _, [], t => t
  | i, n :: ns, t => repairGo coins (i + 1) ns (repairOne (coins i) n t)

/-- The tree-editing core of `startRepair()`: every corrupted node is either
repaired or removed, after which the whole tree's folder sizes are
recomputed from the root. -/
def startRepairCore (coins : Nat → Bool) (t : Node) : Node :=
  updateFolderSize (repairGo coins 0 ((getAllNodes t).filter Node.corrupted) t)

/-! ## Reference permission model

The design document's description of `checkPermission`, stated on its own
terms so the implementation can be compared against it. -/

/-- Is the actor one of the privileged non-owner roles (which read the group
triple)? -/
def privilegedNonOwnerRole (actor : String) : Bool :=
  actor == "admin" || actor == "user"

/-- The triple the reference definition selects: owner match → owner triple,
privileged non-owner role → group triple, otherwise the others triple. -/
def selectTriple (actor : String) (node : Node) : String :=
  if actor == node.owner then node.perms.owner
  else if privilegedNonOwnerRole actor then node.perms.group
  else node.perms.others

/-- The letter standing for each operation's bit. -/
def permChar : POp → Char
  | .read => 'r'
  | .write => 'w'
  | .execute => 'x'

/-- Does a triple contain the bit for the requested operation? -/
def tripleHasBit (triple : String) (operation : POp) : Bool :=
  strContains triple (permChar operation)

/-- The reference definition: admin always succeeds, otherwise the selected
triple is tested for the requested bit. -/
def checkPermissionRef (node : Node) (operation : POp) (actor : String)
    (isAdmin : Bool) : Bool :=
  if isAdmin then true
  else tripleHasBit (selectTriple actor node) operation

/-- The path `cd` would change to. -/
def cdTarget (s : State) (p : String) : String := cdResolve s.currentPath p

/-- Do all three `cd` success conditions hold: the resolved target exists,
is a folder, and grants execute permission? -/
def cdOk (s : State) (p : String) : Bool :=
  match getNodeByPath s.tree (cdTarget s p) with
  | none => false
  | some n => n.isFolder && checkPermission s.adminMode s.currentUser n .execute

/-- Is the first segment list a (not necessarily strict) leading prefix of
the second? -/
def leadsB : List String → List String → Bool
  | [], _ => true
  | _ :: _, [] => false
  | a :: as, b :: bs => a == b && leadsB as bs

/-- Do the two segment lists branch apart: equal for a while, then both
continue with different segments? -/
def divergeB : List String → List String → Bool
  | a :: as, b :: bs => a != b || (a == b && divergeB as bs)
  | _, _ => false

/-- The node a paste-copy inserts: the clipboard's deep copy under a fresh
id and the disambiguated name. -/
def pastedNode (dest nsrc : Node) (freshId : String) : Node :=
  nsrc.withMeta fun m =>
    { m with id := freshId, name := generateUniqueName dest.childrenD nsrc.name }

/-- The root-stability invariant: the live tree's top node is the folder
with the stable identifier `root`, and so is every stored snapshot's tree
(so a restore can never replace the root with anything else). -/
def rootOk (s : State) : Prop :=
  s.tree.id = "root" ∧ s.tree.isFolder = true ∧
    ∀ sn ∈ s.snapshots, sn.data.id = "root" ∧ sn.data.isFolder = true

/-! ## Concrete example states (used by witnesses and counterexamples) -/

/-- Scalar fields for an example node owned by `admin` with the default
folder triples. -/
def exampleMeta (i nm : String) (sz : Nat) : Meta :=
  { id := i, name := nm, owner := "admin", perms := ⟨"rwx", "r-x", "r--"⟩,
    size := sz, createdAt := 0, modifiedAt := 0, corrupted := false }

/-- A root folder containing one empty folder `d`. -/
def exampleTree : Node :=
  .folder (exampleMeta "root" "/" 0) [.folder (exampleMeta "d1" "d" 0) []]

/-- A session on `exampleTree` working inside `/d` as non-admin `admin`. -/
def exampleState : State :=
  { tree := exampleTree, currentUser := "admin", adminMode := false,
    currentPath := "/d", selectedItem := none, clipboard := none, snapshots := [] }

/-- An example file `x.txt` with content `hi`. -/
def exampleFileX : Node :=
  .file { id := "x1", name := "x.txt", owner := "admin",
          perms := ⟨"rw-", "r--", "r--"⟩, size := 2, createdAt := 0,
          modifiedAt := 0, corrupted := false } "hi"

/-- A session whose clipboard holds a copy of `x.txt` while the root already
contains `x.txt` itself. -/
def examplePasteState : State :=
  { tree := .folder (exampleMeta "root" "/" 2) [exampleFileX],
    currentUser := "admin", adminMode := false, currentPath := "/",
    selectedItem := none, clipboard := some ⟨.copy, exampleFileX, "/x.txt"⟩,
    snapshots := [] }

/-- A concrete stream of random draws for `corruptRandomItems`. -/
def exCorruptRng : CorruptRng :=
  { countPick := 0, indexPick := fun _ => 0, levelPick := fun _ => 0,
    posPick := fun _ _ => 0, charPick := fun _ _ => 0 }

/-- A source folder `d` whose subtree carries a stale size: the empty folder
`e` inside it stores size 999. -/
def exampleStaleD : Node :=
  .folder (exampleMeta "d1" "d" 0) [.folder (exampleMeta "e1" "e" 999) []]

/-- A session on a stale-size tree whose clipboard holds a copy of `d`; the
paste destination `/` is a proper ancestor of the source `/d`. -/
def exampleStaleState : State :=
  { tree := .folder (exampleMeta "root" "/" 0) [exampleStaleD],
    currentUser := "admin", adminMode := false, currentPath := "/",
    selectedItem := none, clipboard := some ⟨.copy, exampleStaleD, "/d"⟩,
    snapshots := [] }

/-- A session whose clipboard holds a copy of the folder `d` itself, so that
pasting into `/d` pastes a folder into its own source. -/
def exampleSelfPasteState : State :=
  { tree := exampleTree, currentUser := "admin", adminMode := false,
    currentPath := "/d", selectedItem := none,
    clipboard := some ⟨.copy, .folder (exampleMeta "d1" "d" 0) [], "/d"⟩,
    snapshots := [] }

/-! # Theorems -/

/-- C3: `checkPermission` coincides with the reference definition on every
node, operation, actor and admin flag: admin mode always succeeds, and
otherwise the owner/group/others triple is selected by the actor's relation
to the node's owner and tested for the requested bit. -/
theorem c3_checkPermission_refines_reference :
    ∀ (node : Node) (operation : POp) (actor : String) (isAdmin : Bool),
      checkPermission isAdmin actor node operation =
        checkPermissionRef node operation actor isAdmin := by
  intro node operation actor isAdmin
  cases isAdmin with
  | true => rfl
  | false =>
    cases operation <;>
      simp [checkPermission, checkPermissionRef, tripleHasBit, selectTriple,
        privilegedNonOwnerRole, permChar]

/-- C6: creating a snapshot and immediately restoring it yields exactly the
tree that was live before the snapshot was taken. -/
theorem c6_snapshot_roundtrip :
    ∀ (s : State) (now : Nat) (nm : String),
      (restoreSnapshot (createSnapshot s now nm)).1.tree = s.tree := by
  intro s now nm
  simp only [createSnapshot]
  split
  · rename_i hlen
    rcases hsn : s.snapshots with _ | ⟨a, l⟩
    · rw [hsn] at hlen; simp at hlen
    · rfl
  · rfl

/-- C10: `cd` fails closed — the session is unchanged (in particular the
working directory keeps its path) unless the resolved target exists, is a
folder and grants execute permission, in which case, and only then, the
working directory becomes the target. -/
theorem c10_cd_fails_closed :
    ∀ (s : State) (arg : Option String),
      (terminalCD s arg).1 =
        (match arg with
         | none => s
         | some p =>
           if cdOk s p then { s with currentPath := cdTarget s p } else s) := by
  intro s arg
  cases arg with
  | none => rfl
  | some p =>
    simp only [terminalCD, cdOk, cdTarget]
    rcases h : getNodeByPath s.tree (cdResolve s.currentPath p) with _ | n
    · simp [h]
    · simp only [h]
      by_cases hf : n.isFolder
      · by_cases hx : checkPermission s.adminMode s.currentUser n .execute
        · simp [hf, hx]
        · simp [hf, hx]
      · simp [hf]

end VFS

namespace VFS

/-! ## The size invariant and `updateFolderSize` -/

mutual

/-- `updateFolderSize` establishes the size invariant on the entire subtree
it is invoked on. -/
theorem sizeOk_updateFolderSize : ∀ n, sizeOk (updateFolderSize n) = true
  | .file _ _ => rfl
  | .folder _ cs => by
    simp [updateFolderSize, sizeOk, allSizeOk_updateChildren cs]

/-- List version of `sizeOk_updateFolderSize`. -/
theorem allSizeOk_updateChildren : ∀ cs, allSizeOk (updateChildren cs) = true
  | [] => rfl
  | c :: cs => by
    simp [updateChildren, allSizeOk, sizeOk_updateFolderSize c,
      allSizeOk_updateChildren cs]

end

theorem updateFolderSize_name : ∀ n : Node, (updateFolderSize n).name = n.name
  | .file _ _ => rfl
  | .folder _ _ => rfl

theorem updateFolderSize_id : ∀ n : Node, (updateFolderSize n).id = n.id
  | .file _ _ => rfl
  | .folder _ _ => rfl

theorem updateFolderSize_isFolder :
    ∀ n : Node, (updateFolderSize n).isFolder = n.isFolder
  | .file _ _ => rfl
  | .folder _ _ => rfl

theorem pushChildAndSize_name (c : Node) (now : Nat) :
    ∀ d : Node, (pushChildAndSize c now d).name = d.name
  | .file _ _ => rfl
  | .folder m cs => by
    show (updateFolderSize (.folder { m with modifiedAt := now } (cs ++ [c]))).name
      = (Node.folder m cs).name
    rw [updateFolderSize_name]
    rfl

/-! ## Walking a modified tree -/

/-- `find?` by name on a `modifyFirst`-rewritten list finds the rewritten
node, provided the rewrite preserved its name. -/
theorem find?_modifyFirst (p : String) (g : Node → Node) :
    ∀ (cs : List Node) (c : Node),
      cs.find? (fun x => x.name == p) = some c → (g c).name = c.name →
      (modifyFirst p g cs).find? (fun x => x.name == p) = some (g c) := by
  intro cs
  induction cs with
  | nil => intro c h _; simp [List.find?] at h
  | cons c0 rest ih =>
    intro c h hg
    by_cases h0 : (c0.name == p) = true
    · simp only [List.find?, h0] at h
      injection h with h
      subst h
      have hgp : ((g c0).name == p) = true := by rw [hg]; exact h0
      simp only [modifyFirst, h0, if_true, List.find?, hgp]
    · rw [Bool.not_eq_true] at h0
      simp only [List.find?, h0] at h
      simp only [modifyFirst, h0, Bool.false_eq_true, if_false, List.find?]
      exact ih c h hg

/-- Rewriting along a path preserves the top node's name, provided the
rewrite function does. -/
theorem modifyAtPath_name :
    ∀ (ps : List String) (f : Node → Node) (t n : Node),
      walkPath ps t = some n → (f n).name = n.name →
      (modifyAtPath ps f t).name = t.name := by
  intro ps f t n hw hf
  cases ps with
  | nil => cases hw; exact hf
  | cons p ps =>
    cases t with
    | file m c => simp [walkPath] at hw
    | folder m cs => simp [modifyAtPath, Node.name, Node.meta]

/-- Walking the rewritten path in the rewritten tree reaches exactly the
rewritten node, provided the rewrite preserved its name. -/
theorem walkPath_modifyAtPath :
    ∀ (ps : List String) (f : Node → Node) (t n : Node),
      walkPath ps t = some n → (f n).name = n.name →
      walkPath ps (modifyAtPath ps f t) = some (f n) := by
  intro ps
  induction ps with
  | nil => intro f t n hw hf; cases hw; rfl
  | cons p ps ih =>
    intro f t n hw hf
    cases t with
    | file m c => simp [walkPath] at hw
    | folder m cs =>
      simp only [walkPath] at hw
      rcases hc : cs.find? (fun x => x.name == p) with _ | c
      · rw [hc] at hw; simp at hw
      · rw [hc] at hw
        simp only at hw
        have hname : (modifyAtPath ps f c).name = c.name :=
          modifyAtPath_name ps f c n hw hf
        simp only [modifyAtPath, walkPath]
        rw [find?_modifyFirst p (modifyAtPath ps f) cs c hc hname]
        exact ih f c n hw hf

/-- Looking up the edited directory after a push-and-resize edit. -/
theorem getNodeByPath_push (s : State) (m : Meta) (cs : List Node) (c : Node)
    (now : Nat)
    (h : getNodeByPath s.tree s.currentPath = some (.folder m cs)) :
    getNodeByPath (modifyAtPath (splitPath s.currentPath) (pushChildAndSize c now) s.tree)
        s.currentPath = some (pushChildAndSize c now (.folder m cs)) :=
  walkPath_modifyAtPath _ _ _ _ h (pushChildAndSize_name c now _)

end VFS

namespace VFS

/-- On the success path (non-empty name, no sibling conflict, write
permission), `createNewFile` pushes the new file into the current directory
and reruns `updateFolderSize` there, leaving everything else alone. -/
theorem createNewFile_success (s : State) (rawName content freshId : String)
    (now : Nat) (m : Meta) (cs : List Node)
    (hname : (jsTrim rawName == "") = false)
    (heq : getNodeByPath s.tree s.currentPath = some (.folder m cs))
    (hconf : (cs.any fun c => c.name == jsTrim rawName) = false)
    (hperm : checkPermission s.adminMode s.currentUser (.folder m cs) .write = true) :
    createNewFile s rawName content freshId now =
      ({ s with
          tree :=
            modifyAtPath (splitPath s.currentPath)
              (pushChildAndSize
                (if (content != "") = true then
                  setContentAndSize content (createNode (jsTrim rawName) .file
                    s.currentUser ⟨"rw-", "r--", "r--"⟩ freshId now)
                else
                  createNode (jsTrim rawName) .file s.currentUser
                    ⟨"rw-", "r--", "r--"⟩ freshId now)
                now)
              s.tree },
        .ok "") := by
  simp [createNewFile, heq, hname, hconf, hperm]

/-- C1 (amended): a mutation re-establishes the size invariant on the subtree
of the folder it passes to `updateFolderSize` — the directly edited
directory — and on all of that folder's descendants; ancestors of the edited
directory are not recomputed.  Stated as: `updateFolderSize` establishes the
invariant on its whole argument subtree, and a successful `createNewFile`
leaves the current directory's subtree satisfying it. -/
theorem c1_amended_size_invariant_on_edited_subtree :
    (∀ n : Node, sizeOk (updateFolderSize n) = true) ∧
    (∀ (s : State) (rawName content freshId : String) (now : Nat) (m : Meta)
      (cs : List Node),
      (jsTrim rawName == "") = false →
      getNodeByPath s.tree s.currentPath = some (.folder m cs) →
      (cs.any fun c => c.name == jsTrim rawName) = false →
      checkPermission s.adminMode s.currentUser (.folder m cs) .write = true →
      ∃ d, getNodeByPath (createNewFile s rawName content freshId now).1.tree
            s.currentPath = some d ∧ sizeOk d = true) := by
  constructor
  · exact sizeOk_updateFolderSize
  · intro s rawName content freshId now m cs hname heq hconf hperm
    rw [createNewFile_success s rawName content freshId now m cs hname heq hconf hperm]
    refine ⟨_, getNodeByPath_push s m cs
      (if (content != "") = true then
        setContentAndSize content (createNode (jsTrim rawName) .file s.currentUser
          ⟨"rw-", "r--", "r--"⟩ freshId now)
      else
        createNode (jsTrim rawName) .file s.currentUser
          ⟨"rw-", "r--", "r--"⟩ freshId now)
      now heq, sizeOk_updateFolderSize _⟩

/-- C1 counterexample: `touch a` inside `/d` recomputes the sizes of `/d`
only; the root still stores size `0` while its children now sum to `100`, so
the size invariant does not hold for every folder after this mutation. -/
theorem c1_counterexample_stale_ancestor :
    (terminalTOUCH exampleState (some "a") "f1" 5).2 = .ok "" ∧
    sizeOk (terminalTOUCH exampleState (some "a") "f1" 5).1.tree = false := by
  constructor
  · decide
  · decide

end VFS

namespace VFS

/-! ## File sizes at creation (C2) -/

/-- On the create path (write permission, no existing sibling of that name),
`terminalTOUCH` pushes a fresh default file into the current directory. -/
theorem terminalTOUCH_create (s : State) (p freshId : String) (now : Nat)
    (m : Meta) (cs : List Node)
    (heq : getNodeByPath s.tree s.currentPath = some (.folder m cs))
    (hperm : checkPermission s.adminMode s.currentUser (.folder m cs) .write = true)
    (hnone : cs.find? (fun c => c.name == p) = none) :
    terminalTOUCH s (some p) freshId now =
      ({ s with
          tree :=
            modifyAtPath (splitPath s.currentPath)
              (pushChildAndSize
                (createNode p .file s.currentUser ⟨"rw-", "r--", "r--"⟩ freshId now)
                now)
              s.tree },
        .ok "") := by
  simp [terminalTOUCH, heq, hperm, hnone]

/-- Finding the just-appended child by name after the directory's sizes were
recomputed: the untouched siblings do not match, the appended node does. -/
theorem updateChildren_find?_append (p : String) (c : Node) :
    ∀ cs : List Node, (∀ x ∈ cs, (x.name == p) = false) → c.name = p →
      (updateChildren (cs ++ [c])).find? (fun x => x.name == p)
        = some (updateFolderSize c) := by
  intro cs
  induction cs with
  | nil =>
    intro _ hc
    have hcp : ((updateFolderSize c).name == p) = true := by
      rw [updateFolderSize_name, hc]; simp
    simp only [List.nil_append, updateChildren, List.find?, hcp]
  | cons c0 rest ih =>
    intro h hc
    have h0 : ((updateFolderSize c0).name == p) = false := by
      rw [updateFolderSize_name]; exact h c0 (by simp)
    simp only [List.cons_append, updateChildren, List.find?, h0]
    exact ih (fun x hx => h x (by simp [hx])) hc

/-- C2 (amended): a file's stored size equals the byte length of its content
only when the file was created through `createNewFile` with a non-empty
content; `touch` on a fresh name (and `createNewFile` with empty content)
instead leaves `createNode`'s defaults, an empty content with the fixed size
`100` — not `0`. -/
theorem c2_amended_file_sizes :
    (∀ (s : State) (p freshId : String) (now : Nat) (m : Meta) (cs : List Node),
      getNodeByPath s.tree s.currentPath = some (.folder m cs) →
      checkPermission s.adminMode s.currentUser (.folder m cs) .write = true →
      cs.find? (fun c => c.name == p) = none →
      ∃ d, getNodeByPath (terminalTOUCH s (some p) freshId now).1.tree
            s.currentPath = some d ∧
        d.childrenD.find? (fun c => c.name == p)
          = some (createNode p .file s.currentUser ⟨"rw-", "r--", "r--"⟩ freshId now) ∧
        (createNode p .file s.currentUser ⟨"rw-", "r--", "r--"⟩ freshId now).contentD
          = "" ∧
        (createNode p .file s.currentUser ⟨"rw-", "r--", "r--"⟩ freshId now).size
          = 100) ∧
    (∀ (s : State) (rawName content freshId : String) (now : Nat) (m : Meta)
      (cs : List Node),
      (jsTrim rawName == "") = false →
      getNodeByPath s.tree s.currentPath = some (.folder m cs) →
      (cs.any fun c => c.name == jsTrim rawName) = false →
      checkPermission s.adminMode s.currentUser (.folder m cs) .write = true →
      content ≠ "" →
      ∃ d, getNodeByPath (createNewFile s rawName content freshId now).1.tree
            s.currentPath = some d ∧
        d.childrenD.find? (fun c => c.name == jsTrim rawName)
          = some (setContentAndSize content (createNode (jsTrim rawName) .file
              s.currentUser ⟨"rw-", "r--", "r--"⟩ freshId now)) ∧
        (setContentAndSize content (createNode (jsTrim rawName) .file
            s.currentUser ⟨"rw-", "r--", "r--"⟩ freshId now)).size
          = calculateSize content ∧
        (setContentAndSize content (createNode (jsTrim rawName) .file
            s.currentUser ⟨"rw-", "r--", "r--"⟩ freshId now)).contentD
          = content) := by
  constructor
  · intro s p freshId now m cs heq hperm hnone
    rw [terminalTOUCH_create s p freshId now m cs heq hperm hnone]
    refine ⟨_, getNodeByPath_push s m cs
      (createNode p .file s.currentUser ⟨"rw-", "r--", "r--"⟩ freshId now) now heq,
      ?_, rfl, rfl⟩
    have hall : ∀ x ∈ cs, (x.name == p) = false := by
      intro x hx
      rcases hfx : (x.name == p) with _ | _
      · rfl
      · exact absurd (List.find?_eq_none.mp hnone x hx) (by simp [hfx])
    exact updateChildren_find?_append p _ cs hall rfl
  · intro s rawName content freshId now m cs hname heq hconf hperm hcontent
    rw [createNewFile_success s rawName content freshId now m cs hname heq hconf hperm]
    have hcb : (content != "") = true := by
      simpa using hcontent
    rw [if_pos hcb]
    have hall : ∀ x ∈ cs, (x.name == jsTrim rawName) = false := by
      intro x hx
      rcases hfx : (x.name == jsTrim rawName) with _ | _
      · rfl
      · have hany : (cs.any fun c => c.name == jsTrim rawName) = true :=
          List.any_eq_true.mpr ⟨x, hx, hfx⟩
        rw [hconf] at hany
        exact absurd hany (by simp)
    refine ⟨pushChildAndSize (setContentAndSize content (createNode (jsTrim rawName)
        .file s.currentUser ⟨"rw-", "r--", "r--"⟩ freshId now)) now (.folder m cs),
      getNodeByPath_push s m cs _ now heq,
      updateChildren_find?_append (jsTrim rawName) _ cs hall rfl, rfl, rfl⟩

/-- C2 counterexample: `touch a` in `/d` creates a file whose stored size is
the `createNode` default `100` although its content is empty (byte length
`0`), so the stored size does not equal the content's byte length. -/
theorem c2_counterexample_touch_size :
    (getNodeByPath (terminalTOUCH exampleState (some "a") "f1" 5).1.tree "/d/a").map
        (fun n => (n.size, n.contentD)) = some (100, "") ∧
    calculateSize "" = 0 ∧ ¬ (100 = 0) := by
  refine ⟨by decide, by decide, by decide⟩

/-- Witness for the amended C2 theorem: touching `a` inside `/d` of the
example tree creates the default file. -/
theorem c2_amended_witness :
    getNodeByPath exampleState.tree exampleState.currentPath
      = some (.folder (exampleMeta "d1" "d" 0) []) ∧
    (∃ d, getNodeByPath (terminalTOUCH exampleState (some "a") "f9" 7).1.tree
          exampleState.currentPath = some d ∧
      d.childrenD.find? (fun c => c.name == "a")
        = some (createNode "a" .file exampleState.currentUser
            ⟨"rw-", "r--", "r--"⟩ "f9" 7) ∧
      (createNode "a" .file exampleState.currentUser
          ⟨"rw-", "r--", "r--"⟩ "f9" 7).contentD = "" ∧
      (createNode "a" .file exampleState.currentUser
          ⟨"rw-", "r--", "r--"⟩ "f9" 7).size = 100) :=
  ⟨by decide, c2_amended_file_sizes.1 exampleState "a" "f9" 7
    (exampleMeta "d1" "d" 0) [] (by decide) (by decide) (by decide)⟩

/-- Witness for the amended C1 theorem: creating `a` with content `hi`
inside `/d` of the example tree leaves `/d`'s subtree satisfying the size
invariant. -/
theorem c1_amended_witness :
    (jsTrim "a" == "") = false ∧
    getNodeByPath exampleState.tree exampleState.currentPath
      = some (.folder (exampleMeta "d1" "d" 0) []) ∧
    (∃ d, getNodeByPath (createNewFile exampleState "a" "hi" "f1" 5).1.tree
          exampleState.currentPath = some d ∧ sizeOk d = true) :=
  ⟨by decide, by decide,
    c1_amended_size_invariant_on_edited_subtree.2 exampleState "a" "hi" "f1" 5
      (exampleMeta "d1" "d" 0) [] (by decide) (by decide) (by decide) (by decide)⟩

end VFS

namespace VFS

/-! ## Name disambiguation (C8) -/

/-- The disambiguation loop returns the first candidate (base name, then
counter names in increasing order) that is not among the given names,
whenever such a candidate occurs within the fuel. -/
theorem gunGo_least (names : List String) (base : String) :
    ∀ (fuel k : Nat),
      (∃ j, j < fuel ∧ names.contains (gunCand base (k + j)) = false) →
      names.contains (gunGo names base fuel k) = false ∧
      ∃ j, j < fuel ∧ gunGo names base fuel k = gunCand base (k + j) ∧
        ∀ i, i < j → names.contains (gunCand base (k + i)) = true := by
  intro fuel
  induction fuel with
  | zero =>
    intro k h
    rcases h with ⟨j, hj, _⟩
    exact absurd hj (Nat.not_lt_zero j)
  | succ f ih =>
    intro k h
    by_cases h0 : names.contains (gunCand base k) = true
    · have h0m : gunCand base k ∈ names := by simpa using h0
      have hgun : gunGo names base (f + 1) k = gunGo names base f (k + 1) := by
        simp [gunGo, h0m]
      rcases h with ⟨j, hj, hjf⟩
      rcases j with _ | j'
      · rw [Nat.add_zero] at hjf; rw [hjf] at h0; exact absurd h0 (by simp)
      · have hex : ∃ j, j < f ∧ names.contains (gunCand base (k + 1 + j)) = false := by
          refine ⟨j', by omega, ?_⟩
          have : k + 1 + j' = k + (j' + 1) := by omega
          rw [this]; exact hjf
        rcases ih (k + 1) hex with ⟨hres, j'', hj'', heq, hmin⟩
        rw [hgun]
        refine ⟨hres, j'' + 1, by omega, ?_, ?_⟩
        · rw [heq]; congr 1; omega
        · intro i hi
          rcases i with _ | i'
          · rw [Nat.add_zero]; exact h0
          · have : k + (i' + 1) = k + 1 + i' := by omega
            rw [this]; exact hmin i' (by omega)
    · rw [Bool.not_eq_true] at h0
      have h0m : gunCand base k ∉ names := by simpa using h0
      have hgun : gunGo names base (f + 1) k = gunCand base k := by
        simp [gunGo, h0m]
      rw [hgun]
      exact ⟨h0, 0, by omega, by rw [Nat.add_zero], fun i hi => absurd hi (by omega)⟩

/-- C8: `generateUniqueName` returns the base name when it is free, and
otherwise the counter-in-parentheses name with the least counter free in the
destination (so the result is never a sibling name); and pasting a copy of
`x.txt` into a folder already containing `x.txt` produces `x (1).txt`. -/
theorem c8_paste_name_disambiguation :
    (∀ (children : List Node) (base : String),
      ((List.range (children.length + 1)).any
        (fun j => ! (children.map Node.name).contains (gunCand base j))) = true →
      (children.map Node.name).contains (generateUniqueName children base) = false ∧
      ∃ k, k ≤ children.length ∧
        generateUniqueName children base = gunCand base k ∧
        ∀ i, i < k → (children.map Node.name).contains (gunCand base i) = true) ∧
    ((pasteItem examplePasteState "/" "n2" 9).1.tree.childrenD.map Node.name
        = ["x.txt", "x (1).txt"] ∧
      candName "x.txt" 1 = "x (1).txt") := by
  constructor
  · intro children base hany
    have hex : ∃ j, j < children.length + 1 ∧
        (children.map Node.name).contains (gunCand base (0 + j)) = false := by
      rcases List.any_eq_true.mp hany with ⟨j, hjr, hjf⟩
      exact ⟨j, List.mem_range.mp hjr, by simpa using hjf⟩
    rcases gunGo_least (children.map Node.name) base (children.length + 1) 0 hex with
      ⟨hres, j, hj, heq, hmin⟩
    refine ⟨hres, j, by omega, by simpa using heq, fun i hi => by simpa using hmin i hi⟩
  · exact ⟨by decide, by decide⟩

/-- Witness for the C8 theorem at a singleton destination already holding
`x.txt`. -/
theorem c8_witness :
    ((List.range ([exampleFileX].length + 1)).any
      (fun j => ! ([exampleFileX].map Node.name).contains (gunCand "x.txt" j))) = true ∧
    (([exampleFileX].map Node.name).contains
        (generateUniqueName [exampleFileX] "x.txt") = false ∧
      ∃ k, k ≤ [exampleFileX].length ∧
        generateUniqueName [exampleFileX] "x.txt" = gunCand "x.txt" k ∧
        ∀ i, i < k →
          ([exampleFileX].map Node.name).contains (gunCand "x.txt" i) = true) :=
  ⟨by decide, c8_paste_name_disambiguation.1 [exampleFileX] "x.txt" (by decide)⟩

end VFS

namespace VFS

/-- C4: every mutation operation either succeeds, or surfaces its failure as
a result value while the tree is exactly the one from before the call
(equivalently: whenever the result is a failure, the tree is unchanged — no
partial mutation, no unrecoverable fault). -/
theorem c4_failures_leave_tree_unchanged :
    (∀ (s : State) (rawName content freshId : String) (now : Nat),
      (createNewFile s rawName content freshId now).1.tree = s.tree ∨
        (createNewFile s rawName content freshId now).2.isErr = false) ∧
    (∀ (s : State) (rawNewName : String) (now : Nat),
      (renameSelectedItem s rawNewName now).1.tree = s.tree ∨
        (renameSelectedItem s rawNewName now).2.isErr = false) ∧
    (∀ (s : State) (path : String) (now : Nat),
      (deleteItem s path now).1.tree = s.tree ∨
        (deleteItem s path now).2.isErr = false) ∧
    (∀ (s : State) (path : String),
      (copyItem s path).1.tree = s.tree) ∧
    (∀ (s : State) (path : String),
      (moveItem s path).1.tree = s.tree) ∧
    (∀ (s : State) (destPath freshId : String) (now : Nat),
      (pasteItem s destPath freshId now).1.tree = s.tree ∨
        (pasteItem s destPath freshId now).2.isErr = false) ∧
    (∀ (s : State) (arg : Option String) (freshId : String) (now : Nat),
      (terminalTOUCH s arg freshId now).1.tree = s.tree ∨
        (terminalTOUCH s arg freshId now).2.isErr = false) ∧
    (∀ (s : State) (arg : Option String) (freshId : String) (now : Nat),
      (terminalMKDIR s arg freshId now).1.tree = s.tree ∨
        (terminalMKDIR s arg freshId now).2.isErr = false) ∧
    (∀ (s : State) (arg : Option String) (now : Nat),
      (terminalRM s arg now).1.tree = s.tree ∨
        (terminalRM s arg now).2.isErr = false) ∧
    (∀ (s : State) (modeArg pathArg : Option String) (now : Nat),
      (terminalCHMOD s modeArg pathArg now).1.tree = s.tree ∨
        (terminalCHMOD s modeArg pathArg now).2.isErr = false) ∧
    (∀ (s : State) (arg : Option String),
      (terminalCD s arg).1.tree = s.tree) ∧
    (∀ s : State,
      (restoreSnapshot s).1.tree = s.tree ∨
        (restoreSnapshot s).2.isErr = false) := by
  refine ⟨?_, ?_, ?_, ?_, ?_, ?_, ?_, ?_, ?_, ?_, ?_, ?_⟩
  · intro s rawName content freshId now
    simp only [createNewFile]
    repeat' split
    all_goals simp [OpResult.isErr]
  · intro s rawNewName now
    simp only [renameSelectedItem]
    repeat' split
    all_goals simp [OpResult.isErr]
  · intro s path now
    simp only [deleteItem]
    repeat' split
    all_goals simp [OpResult.isErr]
  · intro s path
    simp only [copyItem]
    repeat' split
    all_goals simp
  · intro s path
    simp only [moveItem]
    repeat' split
    all_goals simp
  · intro s destPath freshId now
    simp only [pasteItem]
    repeat' split
    all_goals simp [OpResult.isErr]
  · intro s arg freshId now
    simp only [terminalTOUCH]
    repeat' split
    all_goals simp [OpResult.isErr]
  · intro s arg freshId now
    simp only [terminalMKDIR]
    repeat' split
    all_goals simp [OpResult.isErr]
  · intro s arg now
    simp only [terminalRM]
    repeat' split
    all_goals simp [OpResult.isErr]
  · intro s modeArg pathArg now
    simp only [terminalCHMOD]
    repeat' split
    all_goals simp [OpResult.isErr]
  · intro s arg
    simp only [terminalCD]
    repeat' split
    all_goals simp
  · intro s
    simp only [restoreSnapshot]
    repeat' split
    all_goals simp [OpResult.isErr]

end VFS

namespace VFS

/-! ## Root stability (C5) -/

theorem modifyAtPath_pres (ps : List String) (f : Node → Node)
    (hf : ∀ n, (f n).id = n.id ∧ (f n).isFolder = n.isFolder) (t : Node) :
    (modifyAtPath ps f t).id = t.id ∧ (modifyAtPath ps f t).isFolder = t.isFolder := by
  cases ps with
  | nil => exact hf t
  | cons p ps =>
    cases t with
    | file m c => exact ⟨rfl, rfl⟩
    | folder m cs => exact ⟨rfl, rfl⟩

theorem pushChildAndSize_pres (c : Node) (now : Nat) :
    ∀ d, (pushChildAndSize c now d).id = d.id ∧
      (pushChildAndSize c now d).isFolder = d.isFolder
  | .file _ _ => ⟨rfl, rfl⟩
  | .folder m cs => by
    constructor
    · show (updateFolderSize (.folder { m with modifiedAt := now } (cs ++ [c]))).id
        = (Node.folder m cs).id
      rw [updateFolderSize_id]; rfl
    · show (updateFolderSize (.folder { m with modifiedAt := now } (cs ++ [c]))).isFolder
        = (Node.folder m cs).isFolder
      rw [updateFolderSize_isFolder]; rfl

theorem removeChildByIdAndSize_pres (i : String) (now : Nat) :
    ∀ d, (removeChildByIdAndSize i now d).id = d.id ∧
      (removeChildByIdAndSize i now d).isFolder = d.isFolder
  | .file _ _ => ⟨rfl, rfl⟩
  | .folder m cs => by
    constructor
    · show (updateFolderSize (.folder { m with modifiedAt := now } (eraseFirstId i cs))).id
        = (Node.folder m cs).id
      rw [updateFolderSize_id]; rfl
    · show (updateFolderSize (.folder { m with modifiedAt := now }
        (eraseFirstId i cs))).isFolder = (Node.folder m cs).isFolder
      rw [updateFolderSize_isFolder]; rfl

theorem touchChild_pres (p : String) (now : Nat) :
    ∀ d, (touchChild p now d).id = d.id ∧ (touchChild p now d).isFolder = d.isFolder
  | .file _ _ => ⟨rfl, rfl⟩
  | .folder _ _ => ⟨rfl, rfl⟩

theorem setNameTime_pres (nm : String) (now : Nat) :
    ∀ n : Node,
      ((n.withMeta fun m => { m with name := nm, modifiedAt := now }).id = n.id ∧
        (n.withMeta fun m => { m with name := nm, modifiedAt := now }).isFolder
          = n.isFolder)
  | .file _ _ => ⟨rfl, rfl⟩
  | .folder _ _ => ⟨rfl, rfl⟩

theorem setPermsTime_pres (p : Perms) (now : Nat) :
    ∀ n : Node,
      ((n.withMeta fun m => { m with perms := p, modifiedAt := now }).id = n.id ∧
        (n.withMeta fun m => { m with perms := p, modifiedAt := now }).isFolder
          = n.isFolder)
  | .file _ _ => ⟨rfl, rfl⟩
  | .folder _ _ => ⟨rfl, rfl⟩

theorem replaceByIdN_pres_of_ne (i : String) (r : Node) :
    ∀ t : Node, t.id ≠ i →
      ((replaceByIdN i r t).1.id = t.id ∧
        (replaceByIdN i r t).1.isFolder = t.isFolder)
  | .file m c, h => by
    have hb : (m.id == i) = false := by
      simpa [Node.id, Node.meta] using h
    simp [replaceByIdN, hb]
  | .folder m cs, h => by
    have hb : (m.id == i) = false := by
      simpa [Node.id, Node.meta] using h
    simp [replaceByIdN, hb, Node.id, Node.meta, Node.isFolder]

theorem removeByIdN_pres (i : String) :
    ∀ t : Node, ((removeByIdN i t).1.id = t.id ∧
      (removeByIdN i t).1.isFolder = t.isFolder)
  | .file _ _ => ⟨rfl, rfl⟩
  | .folder _ _ => ⟨rfl, rfl⟩

theorem repairOne_pres (coin : Bool) (n : Node) (t : Node)
    (h : n.isFile = true → n.id ≠ t.id) :
    (repairOne coin n t).id = t.id ∧ (repairOne coin n t).isFolder = t.isFolder := by
  unfold repairOne
  split
  · rename_i hc
    rw [Bool.and_eq_true] at hc
    exact replaceByIdN_pres_of_ne n.id (repairFile n) t (Ne.symm (h hc.2))
  · split
    · exact ⟨rfl, rfl⟩
    · exact removeByIdN_pres n.id t

theorem repairGo_pres (coins : Nat → Bool) :
    ∀ (ns : List Node) (i : Nat) (t : Node),
      (∀ n ∈ ns, n.isFile = true → n.id ≠ t.id) →
      ((repairGo coins i ns t).id = t.id ∧
        (repairGo coins i ns t).isFolder = t.isFolder) := by
  intro ns
  induction ns with
  | nil => intro i t _; exact ⟨rfl, rfl⟩
  | cons n ns ih =>
    intro i t h
    have h1 := repairOne_pres (coins i) n t (h n (by simp))
    have h2 := ih (i + 1) (repairOne (coins i) n t)
      (fun x hx hf => by rw [h1.1]; exact h x (by simp [hx]) hf)
    simp only [repairGo]
    exact ⟨h2.1.trans h1.1, h2.2.trans h1.2⟩

theorem corruptLoop_pres (rng : CorruptRng) :
    ∀ (k i : Nat) (pool : List Node) (t : Node),
      (∀ n ∈ pool, n.id ≠ t.id) →
      ((corruptLoop rng k i pool t).1.id = t.id ∧
        (corruptLoop rng k i pool t).1.isFolder = t.isFolder) := by
  intro k
  induction k with
  | zero => intro i pool t _; exact ⟨rfl, rfl⟩
  | succ k ih =>
    intro i pool t h
    cases pool with
    | nil => exact ⟨rfl, rfl⟩
    | cons c cs =>
      simp only [corruptLoop]
      have hmem : (c :: cs).getD (rng.indexPick i % (c :: cs).length) c ∈ c :: cs := by
        by_cases hlt : rng.indexPick i % (c :: cs).length < (c :: cs).length
        · rw [List.getD_eq_getElem _ _ hlt]; exact List.getElem_mem hlt
        · rw [List.getD_eq_default _ _ (by omega)]; simp
      have hne := h _ hmem
      have h1 := replaceByIdN_pres_of_ne
        ((c :: cs).getD (rng.indexPick i % (c :: cs).length) c).id
        (corruptOneFile rng i ((c :: cs).getD (rng.indexPick i % (c :: cs).length) c))
        t (Ne.symm hne)
      have h2 := ih (i + 1) ((c :: cs).eraseIdx (rng.indexPick i % (c :: cs).length))
        (replaceByIdN ((c :: cs).getD (rng.indexPick i % (c :: cs).length) c).id
          (corruptOneFile rng i ((c :: cs).getD (rng.indexPick i % (c :: cs).length) c))
          t).1
        (fun x hx => by
          rw [h1.1]
          exact h x ((List.eraseIdx_sublist _ _).subset hx))
      exact ⟨h2.1.trans h1.1, h2.2.trans h1.2⟩

end VFS

namespace VFS

/-- Rebundle a state whose tree kept the root's id and kind. -/
theorem rootOk_tree {s : State} (h : rootOk s) (t : Node)
    (hid : t.id = s.tree.id) (hf : t.isFolder = s.tree.isFolder)
    (sel : Option String) (cb : Option Clipboard) :
    rootOk { s with tree := t, selectedItem := sel, clipboard := cb } :=
  ⟨hid.trans h.1, hf.trans h.2.1, h.2.2⟩

theorem rootOk_createNewFile (s : State) (h : rootOk s)
    (rawName content freshId : String) (now : Nat) :
    rootOk (createNewFile s rawName content freshId now).1 := by
  simp only [createNewFile]
  repeat' split
  all_goals try exact h
  all_goals
    exact rootOk_tree h _
      ((modifyAtPath_pres _ _ (pushChildAndSize_pres _ now) _).1)
      ((modifyAtPath_pres _ _ (pushChildAndSize_pres _ now) _).2) _ _

theorem rootOk_renameSelectedItem (s : State) (h : rootOk s)
    (rawNewName : String) (now : Nat) :
    rootOk (renameSelectedItem s rawNewName now).1 := by
  simp only [renameSelectedItem]
  repeat' split
  all_goals try exact h
  all_goals
    exact rootOk_tree h _
      ((modifyAtPath_pres _ _ (setNameTime_pres _ now) _).1)
      ((modifyAtPath_pres _ _ (setNameTime_pres _ now) _).2) _ _

theorem rootOk_deleteItem (s : State) (h : rootOk s) (path : String) (now : Nat) :
    rootOk (deleteItem s path now).1 := by
  simp only [deleteItem]
  repeat' split
  all_goals try exact h
  all_goals
    exact rootOk_tree h _
      ((modifyAtPath_pres _ _ (removeChildByIdAndSize_pres _ now) _).1)
      ((modifyAtPath_pres _ _ (removeChildByIdAndSize_pres _ now) _).2) _ _

theorem rootOk_pasteItem (s : State) (h : rootOk s)
    (destPath freshId : String) (now : Nat) :
    rootOk (pasteItem s destPath freshId now).1 := by
  simp only [pasteItem]
  repeat' split
  all_goals try exact h
  all_goals
    first
      | exact rootOk_tree h _
          ((modifyAtPath_pres _ _ (pushChildAndSize_pres _ now) _).1)
          ((modifyAtPath_pres _ _ (pushChildAndSize_pres _ now) _).2) _ _
      | exact rootOk_tree h _
          (((modifyAtPath_pres _ _ (pushChildAndSize_pres _ now) _).1).trans
            ((modifyAtPath_pres _ _ (removeChildByIdAndSize_pres _ now) _).1))
          (((modifyAtPath_pres _ _ (pushChildAndSize_pres _ now) _).2).trans
            ((modifyAtPath_pres _ _ (removeChildByIdAndSize_pres _ now) _).2)) _ _
      | exact rootOk_tree h _
          ((modifyAtPath_pres _ _ (removeChildByIdAndSize_pres _ now) _).1)
          ((modifyAtPath_pres _ _ (removeChildByIdAndSize_pres _ now) _).2) _ _

theorem rootOk_terminalTOUCH (s : State) (h : rootOk s)
    (arg : Option String) (freshId : String) (now : Nat) :
    rootOk (terminalTOUCH s arg freshId now).1 := by
  simp only [terminalTOUCH]
  repeat' split
  all_goals try exact h
  all_goals
    first
      | exact rootOk_tree h _
          ((modifyAtPath_pres _ _ (pushChildAndSize_pres _ now) _).1)
          ((modifyAtPath_pres _ _ (pushChildAndSize_pres _ now) _).2) _ _
      | exact rootOk_tree h _
          ((modifyAtPath_pres _ _ (touchChild_pres _ now) _).1)
          ((modifyAtPath_pres _ _ (touchChild_pres _ now) _).2) _ _

theorem rootOk_terminalMKDIR (s : State) (h : rootOk s)
    (arg : Option String) (freshId : String) (now : Nat) :
    rootOk (terminalMKDIR s arg freshId now).1 := by
  simp only [terminalMKDIR]
  repeat' split
  all_goals try exact h
  all_goals
    exact rootOk_tree h _
      ((modifyAtPath_pres _ _ (pushChildAndSize_pres _ now) _).1)
      ((modifyAtPath_pres _ _ (pushChildAndSize_pres _ now) _).2) _ _

theorem rootOk_terminalRM (s : State) (h : rootOk s)
    (arg : Option String) (now : Nat) :
    rootOk (terminalRM s arg now).1 := by
  simp only [terminalRM]
  repeat' split
  all_goals try exact h
  all_goals
    exact rootOk_tree h _
      ((modifyAtPath_pres _ _ (removeChildByIdAndSize_pres _ now) _).1)
      ((modifyAtPath_pres _ _ (removeChildByIdAndSize_pres _ now) _).2) _ _

theorem rootOk_terminalCHMOD (s : State) (h : rootOk s)
    (modeArg pathArg : Option String) (now : Nat) :
    rootOk (terminalCHMOD s modeArg pathArg now).1 := by
  simp only [terminalCHMOD]
  repeat' split
  all_goals try exact h
  all_goals
    exact rootOk_tree h _
      ((modifyAtPath_pres _ _ (setPermsTime_pres _ now) _).1)
      ((modifyAtPath_pres _ _ (setPermsTime_pres _ now) _).2) _ _

theorem rootOk_terminalCD (s : State) (h : rootOk s) (arg : Option String) :
    rootOk (terminalCD s arg).1 := by
  simp only [terminalCD]
  repeat' split
  all_goals exact h

theorem rootOk_createSnapshot (s : State) (h : rootOk s) (now : Nat) (nm : String) :
    rootOk (createSnapshot s now nm) := by
  refine ⟨h.1, h.2.1, ?_⟩
  intro sn hsn
  simp only [createSnapshot] at hsn
  have hmem : sn ∈ ({ sid := now, sname := nm, timestamp := now, data := s.tree } :
      Snapshot) :: s.snapshots := by
    split at hsn
    · exact (List.dropLast_sublist _).subset hsn
    · exact hsn
  rcases List.mem_cons.mp hmem with heq | hmem2
  · rw [heq]; exact ⟨h.1, h.2.1⟩
  · exact h.2.2 sn hmem2

theorem rootOk_restoreSnapshot (s : State) (h : rootOk s) :
    rootOk (restoreSnapshot s).1 := by
  simp only [restoreSnapshot]
  split
  · exact h
  · rename_i sn tl heq
    have hm : sn ∈ s.snapshots := by rw [heq]; exact List.mem_cons_self _ _
    exact ⟨(h.2.2 sn hm).1, (h.2.2 sn hm).2, h.2.2⟩

theorem corruptRandomItems_pres (rng : CorruptRng) (t : Node)
    (hfid : ∀ n ∈ getAllNodes t, n.isFile = true → n.id ≠ t.id) :
    (corruptRandomItems rng t).1.id = t.id ∧
      (corruptRandomItems rng t).1.isFolder = t.isFolder := by
  simp only [corruptRandomItems]
  split
  · exact ⟨rfl, rfl⟩
  · exact corruptLoop_pres rng _ 0 (uncorruptedFiles t) t
      (fun n hn => by
        simp only [uncorruptedFiles] at hn
        have hmf := List.mem_filter.mp hn
        exact hfid n hmf.1 ((Bool.and_eq_true _ _ |>.mp hmf.2).1))

theorem startRepairCore_pres (coins : Nat → Bool) (t : Node)
    (hfid : ∀ n ∈ getAllNodes t, n.isFile = true → n.id ≠ t.id) :
    (startRepairCore coins t).id = t.id ∧
      (startRepairCore coins t).isFolder = t.isFolder := by
  unfold startRepairCore
  have hr := repairGo_pres coins ((getAllNodes t).filter Node.corrupted) 0 t
    (fun n hn hf => hfid n (List.mem_filter.mp hn).1 hf)
  exact ⟨(updateFolderSize_id _).trans hr.1, (updateFolderSize_isFolder _).trans hr.2⟩

theorem modifyAtPath_name_of_ne_nil (ps : List String) (f : Node → Node) (t : Node)
    (h : ps ≠ []) : (modifyAtPath ps f t).name = t.name := by
  cases ps with
  | nil => exact absurd rfl h
  | cons p ps =>
    cases t with
    | file _ _ => rfl
    | folder _ _ => rfl

/-- The rename operation keeps the root's name whenever the selected path is
not the bare root path (the UI only ever selects child paths). -/
theorem rename_keeps_root_name (s : State) (rawNewName : String) (now : Nat)
    (hsel : ∀ p, s.selectedItem = some p → splitPath p ≠ []) :
    (renameSelectedItem s rawNewName now).1.tree.name = s.tree.name := by
  simp only [renameSelectedItem]
  split
  · rfl
  · split
    · rfl
    · rename_i path heq
      split
      · split
        · rfl
        · split
          · rfl
          · exact modifyAtPath_name_of_ne_nil _ _ _ (hsel path heq)
      · rfl

end VFS

namespace VFS

/-- C5: the root folder is never removed or renamed.  `delete` on the root
path always fails with the root-protection error leaving the state exactly
unchanged; every operation (the explorer edits, the terminal edits, `cd`,
snapshots, restore, random corruption and repair's node removal) preserves
the single root folder and its stable identifier `root`; and rename keeps
the root's name on every UI-selectable path (the UI only ever selects child
paths, never `/`). -/
theorem c5_root_protected_and_stable :
    (∀ (s : State) (now : Nat), s.tree.id = "root" →
      deleteItem s "/" now = (s, .err .rootProtected)) ∧
    (∀ (s : State) (rawName content freshId : String) (now : Nat), rootOk s →
      rootOk (createNewFile s rawName content freshId now).1) ∧
    (∀ (s : State) (rawNewName : String) (now : Nat), rootOk s →
      rootOk (renameSelectedItem s rawNewName now).1) ∧
    (∀ (s : State) (rawNewName : String) (now : Nat),
      (∀ p, s.selectedItem = some p → splitPath p ≠ []) →
      (renameSelectedItem s rawNewName now).1.tree.name = s.tree.name) ∧
    (∀ (s : State) (path : String) (now : Nat), rootOk s →
      rootOk (deleteItem s path now).1) ∧
    (∀ (s : State) (destPath freshId : String) (now : Nat), rootOk s →
      rootOk (pasteItem s destPath freshId now).1) ∧
    (∀ (s : State) (arg : Option String) (freshId : String) (now : Nat), rootOk s →
      rootOk (terminalTOUCH s arg freshId now).1 ∧
        rootOk (terminalMKDIR s arg freshId now).1) ∧
    (∀ (s : State) (arg : Option String) (now : Nat), rootOk s →
      rootOk (terminalRM s arg now).1) ∧
    (∀ (s : State) (modeArg pathArg : Option String) (now : Nat), rootOk s →
      rootOk (terminalCHMOD s modeArg pathArg now).1) ∧
    (∀ (s : State) (arg : Option String), rootOk s → rootOk (terminalCD s arg).1) ∧
    (∀ (s : State) (now : Nat) (nm : String), rootOk s →
      rootOk (createSnapshot s now nm)) ∧
    (∀ s : State, rootOk s → rootOk (restoreSnapshot s).1) ∧
    (∀ (rng : CorruptRng) (t : Node),
      (∀ n ∈ getAllNodes t, n.isFile = true → n.id ≠ t.id) →
      (corruptRandomItems rng t).1.id = t.id ∧
        (corruptRandomItems rng t).1.isFolder = t.isFolder) ∧
    (∀ (coins : Nat → Bool) (t : Node),
      (∀ n ∈ getAllNodes t, n.isFile = true → n.id ≠ t.id) →
      (startRepairCore coins t).id = t.id ∧
        (startRepairCore coins t).isFolder = t.isFolder) := by
  refine ⟨?_, ?_, ?_, ?_, ?_, ?_, ?_, ?_, ?_, ?_, ?_, ?_, ?_, ?_⟩
  · intro s now h
    have hb : (s.tree.id == "root") = true := by simp [h]
    have h2 : getNodeByPath s.tree "/" = some s.tree := rfl
    simp [deleteItem, h2, hb]
  · exact fun s a b c d h => rootOk_createNewFile s h a b c d
  · exact fun s a b h => rootOk_renameSelectedItem s h a b
  · exact fun s a b h => rename_keeps_root_name s a b h
  · exact fun s a b h => rootOk_deleteItem s h a b
  · exact fun s a b c h => rootOk_pasteItem s h a b c
  · exact fun s a b c h =>
      ⟨rootOk_terminalTOUCH s h a b c, rootOk_terminalMKDIR s h a b c⟩
  · exact fun s a b h => rootOk_terminalRM s h a b
  · exact fun s a b c h => rootOk_terminalCHMOD s h a b c
  · exact fun s a h => rootOk_terminalCD s h a
  · exact fun s a b h => rootOk_createSnapshot s h a b
  · exact fun s h => rootOk_restoreSnapshot s h
  · exact fun rng t h => corruptRandomItems_pres rng t h
  · exact fun coins t h => startRepairCore_pres coins t h

/-- Witness for C5: deleting the root path of the example session fails with
the root-protection error and changes nothing. -/
theorem c5_witness :
    exampleState.tree.id = "root" ∧
    deleteItem exampleState "/" 3 = (exampleState, .err .rootProtected) :=
  ⟨by decide, c5_root_protected_and_stable.1 exampleState 3 (by decide)⟩

end VFS

namespace VFS

/-! ## Paths that branch apart (C7) -/

theorem walkPath_append :
    ∀ (a b : List String) (t : Node),
      walkPath (a ++ b) t = (walkPath a t).bind (fun n => walkPath b n) := by
  intro a
  induction a with
  | nil => intro b t; rfl
  | cons p ps ih =>
    intro b t
    cases t with
    | file m c => rfl
    | folder m cs =>
      simp only [List.cons_append, walkPath]
      cases hfind : cs.find? (fun c => c.name == p) with
      | none => rfl
      | some c => exact ih b c

theorem leadsB_refl : ∀ a : List String, leadsB a a = true := by
  intro a
  induction a with
  | nil => rfl
  | cons p ps ih => simp [leadsB, ih]

theorem leadsB_exists :
    ∀ a b : List String, leadsB a b = true → ∃ r, b = a ++ r := by
  intro a
  induction a with
  | nil => intro b _; exact ⟨b, rfl⟩
  | cons p ps ih =>
    intro b h
    cases b with
    | nil => simp [leadsB] at h
    | cons q qs =>
      simp only [leadsB, Bool.and_eq_true, beq_iff_eq] at h
      rcases ih qs h.2 with ⟨r, hr⟩
      exact ⟨r, by rw [h.1, hr]; rfl⟩

theorem divergeB_of_not_leads :
    ∀ a b : List String, leadsB a b = false → leadsB b a = false →
      divergeB a b = true := by
  intro a
  induction a with
  | nil => intro b h _; simp [leadsB] at h
  | cons p ps ih =>
    intro b h1 h2
    cases b with
    | nil => simp [leadsB] at h2
    | cons q qs =>
      by_cases hpq : p = q
      · subst hpq
        simp only [leadsB, beq_self_eq_true, Bool.true_and] at h1 h2
        simp [divergeB, ih qs h1 h2]
      · simp [divergeB, hpq]

theorem divergeB_append_left :
    ∀ (a b x : List String), divergeB a b = true → divergeB (a ++ x) b = true := by
  intro a
  induction a with
  | nil => intro b x h; simp [divergeB] at h
  | cons p ps ih =>
    intro b x h
    cases b with
    | nil => simp [divergeB] at h
    | cons q qs =>
      simp only [divergeB, Bool.or_eq_true, Bool.and_eq_true, bne_iff_ne, ne_eq,
        beq_iff_eq] at h
      rcases h with h | ⟨heq, hd⟩
      · simp [divergeB, h]
      · subst heq
        simp [divergeB, ih qs x hd]

theorem divergeB_append_cons :
    ∀ (a : List String) (x y : String) (xs ys : List String), x ≠ y →
      divergeB (a ++ x :: xs) (a ++ y :: ys) = true := by
  intro a
  induction a with
  | nil => intro x y xs ys h; simp [divergeB, h]
  | cons p ps ih =>
    intro x y xs ys h
    simp only [List.cons_append, divergeB, Bool.or_eq_true, Bool.and_eq_true]
    right
    exact ⟨by simp, ih x y xs ys h⟩

theorem leadsB_snoc :
    ∀ (s a : List String) (x : String), leadsB s (a ++ [x]) = true →
      leadsB s a = true ∨ s = a ++ [x] := by
  intro s
  induction s with
  | nil =>
    intro a x _
    cases a with
    | nil => exact Or.inl rfl
    | cons q qs => exact Or.inl rfl
  | cons p ps ih =>
    intro a x h
    cases a with
    | nil =>
      simp only [List.nil_append, leadsB, Bool.and_eq_true, beq_iff_eq] at h
      right
      cases ps with
      | nil => rw [h.1]; rfl
      | cons r rs => simp [leadsB] at h
    | cons q qs =>
      simp only [List.cons_append, leadsB, Bool.and_eq_true, beq_iff_eq] at h
      rcases ih qs x h.2 with hl | he
      · exact Or.inl (by simp [leadsB, h.1, hl])
      · right; rw [h.1, he]; rfl

end VFS

namespace VFS

/-- A path rewrite with a name-preserving function preserves every node's
name. -/
theorem modifyAtPath_name_all (g : Node → Node) (hg : ∀ x, (g x).name = x.name) :
    ∀ (ps : List String) (t : Node), (modifyAtPath ps g t).name = t.name := by
  intro ps t
  cases ps with
  | nil => exact hg t
  | cons p ps =>
    cases t with
    | file _ _ => rfl
    | folder _ _ => rfl

/-- `modifyFirst` does nothing when no child carries the name. -/
theorem modifyFirst_of_find?_none (p : String) (g : Node → Node) :
    ∀ cs : List Node, cs.find? (fun c => c.name == p) = none →
      modifyFirst p g cs = cs := by
  intro cs
  induction cs with
  | nil => intro _; rfl
  | cons c0 rest ih =>
    intro h
    by_cases h0 : (c0.name == p) = true
    · simp only [List.find?, h0] at h
      exact absurd h (by simp)
    · rw [Bool.not_eq_true] at h0
      simp only [List.find?, h0] at h
      simp only [modifyFirst, h0, Bool.false_eq_true, if_false]
      rw [ih h]

/-- Searching for a different name is unaffected by a name-preserving
`modifyFirst`. -/
theorem find?_modifyFirst_ne (p q : String) (hpq : p ≠ q) (g : Node → Node)
    (hg : ∀ x, (g x).name = x.name) :
    ∀ cs : List Node,
      (modifyFirst p g cs).find? (fun c => c.name == q)
        = cs.find? (fun c => c.name == q) := by
  intro cs
  induction cs with
  | nil => rfl
  | cons c0 rest ih =>
    by_cases h0 : (c0.name == p) = true
    · simp only [modifyFirst, h0, if_true]
      have hq : ((g c0).name == q) = false := by
        rw [hg c0]
        have : c0.name = p := by simpa using h0
        simp [this, hpq]
      have hq0 : (c0.name == q) = false := by
        have : c0.name = p := by simpa using h0
        simp [this, hpq]
      simp only [List.find?, hq, hq0]
    · rw [Bool.not_eq_true] at h0
      simp only [modifyFirst, h0, Bool.false_eq_true, if_false]
      by_cases hq0 : (c0.name == q) = true
      · simp only [List.find?, hq0]
      · rw [Bool.not_eq_true] at hq0
        simp only [List.find?, hq0]
        exact ih

/-- Walking a path that branches apart from the rewritten one sees no
change. -/
theorem walkPath_modifyAtPath_diverge (g : Node → Node)
    (hg : ∀ x, (g x).name = x.name) :
    ∀ (psM psW : List String) (t : Node), divergeB psM psW = true →
      walkPath psW (modifyAtPath psM g t) = walkPath psW t := by
  intro psM
  induction psM with
  | nil => intro psW t h; simp [divergeB] at h
  | cons p ps ih =>
    intro psW t h
    cases psW with
    | nil => simp [divergeB] at h
    | cons q qs =>
      cases t with
      | file m c => rfl
      | folder m cs =>
        simp only [divergeB, Bool.or_eq_true, Bool.and_eq_true, bne_iff_ne, ne_eq,
          beq_iff_eq] at h
        simp only [modifyAtPath, walkPath]
        rcases h with hne | ⟨heq, hd⟩
        · rw [find?_modifyFirst_ne p q hne (modifyAtPath ps g)
            (fun x => modifyAtPath_name_all g hg ps x) cs]
        · subst heq
          cases hfind : cs.find? (fun c => c.name == p) with
          | none =>
            rw [modifyFirst_of_find?_none p (modifyAtPath ps g) cs hfind, hfind]
          | some c =>
            rw [find?_modifyFirst p (modifyAtPath ps g) cs c hfind
              (modifyAtPath_name_all g hg ps c)]
            exact ih qs c hd

end VFS

namespace VFS

/-! ## Trees with consistent sizes -/

theorem allSizeOk_mem :
    ∀ (cs : List Node) (c : Node), allSizeOk cs = true → c ∈ cs → sizeOk c = true := by
  intro cs
  induction cs with
  | nil => intro c _ hc; simp at hc
  | cons c0 rest ih =>
    intro c h hc
    simp only [allSizeOk, Bool.and_eq_true] at h
    rcases List.mem_cons.mp hc with rfl | hm
    · exact h.1
    · exact ih c h.2 hm

theorem allSizeOk_append :
    ∀ (a b : List Node), allSizeOk a = true → allSizeOk b = true →
      allSizeOk (a ++ b) = true := by
  intro a
  induction a with
  | nil => intro b _ hb; exact hb
  | cons c rest ih =>
    intro b ha hb
    simp only [allSizeOk, Bool.and_eq_true] at ha ⊢
    exact ⟨ha.1, ih b ha.2 hb⟩

theorem sizeOk_children (m : Meta) (cs : List Node)
    (h : sizeOk (.folder m cs) = true) : allSizeOk cs = true := by
  simp only [sizeOk, Bool.and_eq_true] at h
  exact h.2

/-- The size invariant is hereditary: every node a path reaches inside a
consistent tree is itself consistent. -/
theorem sizeOk_walkPath :
    ∀ (ps : List String) (t n : Node), sizeOk t = true → walkPath ps t = some n →
      sizeOk n = true := by
  intro ps
  induction ps with
  | nil => intro t n ht hw; cases hw; exact ht
  | cons p ps ih =>
    intro t n ht hw
    cases t with
    | file m c => simp [walkPath] at hw
    | folder m cs =>
      simp only [walkPath] at hw
      cases hfind : cs.find? (fun c => c.name == p) with
      | none => rw [hfind] at hw; simp at hw
      | some c =>
        rw [hfind] at hw
        exact ih c n
          (allSizeOk_mem cs c (sizeOk_children m cs ht) (List.mem_of_find?_eq_some hfind))
          hw

mutual

/-- Recomputing sizes of an already-consistent subtree changes nothing. -/
theorem updateFolderSize_of_sizeOk :
    ∀ n : Node, sizeOk n = true → updateFolderSize n = n
  | .file _ _, _ => rfl
  | .folder m cs, h => by
    simp only [sizeOk, Bool.and_eq_true, beq_iff_eq] at h
    simp only [updateFolderSize, updateChildren_of_allSizeOk cs h.2]
    rw [← h.1]

/-- List version of `updateFolderSize_of_sizeOk`. -/
theorem updateChildren_of_allSizeOk :
    ∀ cs : List Node, allSizeOk cs = true → updateChildren cs = cs
  | [], _ => rfl
  | c :: cs, h => by
    simp only [allSizeOk, Bool.and_eq_true] at h
    simp only [updateChildren, updateFolderSize_of_sizeOk c h.1,
      updateChildren_of_allSizeOk cs h.2]

end

theorem sizeOk_withIdName (i nm : String) :
    ∀ n : Node,
      sizeOk (n.withMeta fun m => { m with id := i, name := nm }) = sizeOk n
  | .file _ _ => rfl
  | .folder _ _ => rfl

theorem withIdName_name (i nm : String) :
    ∀ n : Node, (n.withMeta fun m => { m with id := i, name := nm }).name = nm
  | .file _ _ => rfl
  | .folder _ _ => rfl

theorem pushChildAndSize_childrenD (c : Node) (now : Nat) (m : Meta) (cs : List Node) :
    (pushChildAndSize c now (.folder m cs)).childrenD = updateChildren (cs ++ [c]) := by
  show (updateFolderSize (.folder { m with modifiedAt := now } (cs ++ [c]))).childrenD
    = updateChildren (cs ++ [c])
  simp [updateFolderSize, Node.childrenD]

/-! ## Success shapes of copy and paste -/

theorem copyItem_success (s : State) (path : String) (n : Node)
    (h1 : getNodeByPath s.tree path = some n)
    (h2 : checkPermission s.adminMode s.currentUser n .read = true) :
    copyItem s path = ({ s with clipboard := some ⟨.copy, n, path⟩ }, .ok "") := by
  simp [copyItem, h1, h2]

theorem pasteItem_copy_success (s : State) (nsrc dest : Node)
    (srcPath destPath freshId : String) (now : Nat)
    (hclip : s.clipboard = some ⟨.copy, nsrc, srcPath⟩)
    (h3 : getNodeByPath s.tree destPath = some dest)
    (h4 : dest.isFolder = true)
    (h5 : checkPermission s.adminMode s.currentUser dest .write = true) :
    pasteItem s destPath freshId now =
      ({ s with
          tree :=
            modifyAtPath (splitPath destPath)
              (pushChildAndSize
                (nsrc.withMeta fun m => { m with id := freshId, name := generateUniqueName dest.childrenD nsrc.name })
                now)
              s.tree,
          clipboard := none }, .ok "") := by
  simp [pasteItem, hclip, h3, h4, h5]

end VFS

namespace VFS

theorem find?_append_some {α : Type} (p : α → Bool) :
    ∀ (a b : List α) (c : α), a.find? p = some c → (a ++ b).find? p = some c := by
  intro a
  induction a with
  | nil => intro b c h; simp [List.find?] at h
  | cons x xs ih =>
    intro b c h
    by_cases hx : p x = true
    · simp only [List.find?, hx] at h ⊢
      exact h
    · rw [Bool.not_eq_true] at hx
      simp only [List.find?, hx] at h ⊢
      exact ih b c h

theorem find?_append_none {α : Type} (p : α → Bool) :
    ∀ (a b : List α), a.find? p = none → (a ++ b).find? p = b.find? p := by
  intro a
  induction a with
  | nil => intro b _; rfl
  | cons x xs ih =>
    intro b h
    by_cases hx : p x = true
    · simp only [List.find?, hx] at h
      exact absurd h (by simp)
    · rw [Bool.not_eq_true] at hx
      simp only [List.find?, hx] at h ⊢
      exact ih b h

theorem pushChildAndSize_eq_folder (c : Node) (now : Nat) (m : Meta) (cs : List Node) :
    pushChildAndSize c now (.folder m cs) =
      .folder { m with modifiedAt := now, size := sumSizes (updateChildren (cs ++ [c])) }
        (updateChildren (cs ++ [c])) := by
  show updateFolderSize (.folder { m with modifiedAt := now } (cs ++ [c])) = _
  simp [updateFolderSize]

theorem pastedNode_name (dest nsrc : Node) (freshId : String) :
    (pastedNode dest nsrc freshId).name
      = generateUniqueName dest.childrenD nsrc.name := by
  simp only [pastedNode]
  exact withIdName_name _ _ nsrc

theorem pastedNode_sizeOk (dest nsrc : Node) (freshId : String) :
    sizeOk (pastedNode dest nsrc freshId) = sizeOk nsrc := by
  simp only [pastedNode]
  exact sizeOk_withIdName _ _ nsrc

end VFS

namespace VFS

/-- C7 (amended): when the clipboard copy of a readable source is pasted
into a write-permitted destination folder that is not the source itself nor
inside the source's own subtree, the source subtree is unchanged (it still
resolves to exactly the pre-paste node), the inserted node is the deep copy
under a fresh id and the disambiguated unique name, and the two are
independent: rewriting the pasted node (by its path) leaves the source
resolution untouched, and rewriting the source subtree leaves the pasted
node's resolution untouched. -/
theorem c7_amended_copy_paste_independent (s : State) (nsrc dest : Node)
    (srcPath destPath freshId : String) (now : Nat)
    (h0 : sizeOk s.tree = true)
    (h1 : getNodeByPath s.tree srcPath = some nsrc)
    (h2 : checkPermission s.adminMode s.currentUser nsrc .read = true)
    (h3 : getNodeByPath s.tree destPath = some dest)
    (h4 : dest.isFolder = true)
    (h5 : checkPermission s.adminMode s.currentUser dest .write = true)
    (hu : (dest.childrenD.map Node.name).contains
      (generateUniqueName dest.childrenD nsrc.name) = false)
    (hnl : leadsB (splitPath srcPath) (splitPath destPath) = false) :
    getNodeByPath (pasteItem (copyItem s srcPath).1 destPath freshId now).1.tree
        srcPath = some nsrc ∧
    getNodeByPath (pasteItem (copyItem s srcPath).1 destPath freshId now).1.tree
        destPath = some (pushChildAndSize (pastedNode dest nsrc freshId) now dest) ∧
    (pushChildAndSize (pastedNode dest nsrc freshId) now dest).childrenD
        = dest.childrenD ++ [pastedNode dest nsrc freshId] ∧
    walkPath (splitPath destPath ++ [(pastedNode dest nsrc freshId).name])
        (pasteItem (copyItem s srcPath).1 destPath freshId now).1.tree
        = some (pastedNode dest nsrc freshId) ∧
    (∀ g : Node → Node, (∀ x, (g x).name = x.name) →
      getNodeByPath (modifyAtPath
          (splitPath destPath ++ [(pastedNode dest nsrc freshId).name]) g
          (pasteItem (copyItem s srcPath).1 destPath freshId now).1.tree) srcPath
        = some nsrc) ∧
    (∀ g : Node → Node, (∀ x, (g x).name = x.name) →
      walkPath (splitPath destPath ++ [(pastedNode dest nsrc freshId).name])
          (modifyAtPath (splitPath srcPath) g
            (pasteItem (copyItem s srcPath).1 destPath freshId now).1.tree)
        = some (pastedNode dest nsrc freshId)) := by
  obtain ⟨md, cd, rfl⟩ : ∃ md cd, dest = Node.folder md cd := by
    cases dest with
    | file m c => simp [Node.isFolder] at h4
    | folder m cs => exact ⟨m, cs, rfl⟩
  have hs1 : (copyItem s srcPath).1
      = { s with clipboard := some ⟨.copy, nsrc, srcPath⟩ } := by
    rw [copyItem_success s srcPath nsrc h1 h2]
  have hp := pasteItem_copy_success { s with clipboard := some ⟨.copy, nsrc, srcPath⟩ }
    nsrc (Node.folder md cd) srcPath destPath freshId now rfl h3 h4 h5
  have htree : (pasteItem (copyItem s srcPath).1 destPath freshId now).1.tree
      = modifyAtPath (splitPath destPath)
          (pushChildAndSize (pastedNode (Node.folder md cd) nsrc freshId) now) s.tree := by
    rw [hs1, hp]
    rfl
  -- size bookkeeping facts
  have hsd : sizeOk (Node.folder md cd) = true := sizeOk_walkPath _ _ _ h0 h3
  have hsrc : sizeOk nsrc = true := sizeOk_walkPath _ _ _ h0 h1
  have hcd : allSizeOk cd = true := sizeOk_children md cd hsd
  have hpOk : sizeOk (pastedNode (Node.folder md cd) nsrc freshId) = true := by
    rw [pastedNode_sizeOk]; exact hsrc
  have hupd : updateChildren (cd ++ [pastedNode (Node.folder md cd) nsrc freshId])
      = cd ++ [pastedNode (Node.folder md cd) nsrc freshId] :=
    updateChildren_of_allSizeOk _
      (allSizeOk_append cd _ hcd (by simp [allSizeOk, hpOk]))
  have hpush : pushChildAndSize (pastedNode (Node.folder md cd) nsrc freshId) now (Node.folder md cd) = Node.folder { md with modifiedAt := now, size := sumSizes (cd ++ [pastedNode (Node.folder md cd) nsrc freshId]) } (cd ++ [pastedNode (Node.folder md cd) nsrc freshId]) := by
    rw [pushChildAndSize_eq_folder, hupd]
  have hu' : generateUniqueName (Node.folder md cd).childrenD nsrc.name
      ∉ cd.map Node.name := by
    intro hmem
    have hc : (List.map Node.name cd).elem
        (generateUniqueName (Node.folder md cd).childrenD nsrc.name) = true :=
      List.elem_eq_true_of_mem hmem
    have hu2 : (List.map Node.name cd).elem
        (generateUniqueName (Node.folder md cd).childrenD nsrc.name) = false := hu
    rw [hc] at hu2
    exact absurd hu2 (by simp)
  have hfindNN : cd.find?
      (fun c => c.name == (pastedNode (Node.folder md cd) nsrc freshId).name) = none := by
    apply List.find?_eq_none.mpr
    intro x hx hxx
    apply hu'
    have hxn : x.name = (pastedNode (Node.folder md cd) nsrc freshId).name := by
      simpa using hxx
    rw [pastedNode_name] at hxn
    rw [← hxn]
    exact List.mem_map_of_mem Node.name hx
  -- conjunct 2
  have hC2 : getNodeByPath (pasteItem (copyItem s srcPath).1 destPath freshId now).1.tree
      destPath = some (pushChildAndSize (pastedNode (Node.folder md cd) nsrc freshId)
        now (Node.folder md cd)) := by
    rw [htree]
    exact walkPath_modifyAtPath _ _ _ _ h3 (pushChildAndSize_name _ now _)
  -- conjunct 3
  have hC3 : (pushChildAndSize (pastedNode (Node.folder md cd) nsrc freshId) now
        (Node.folder md cd)).childrenD
      = (Node.folder md cd).childrenD ++ [pastedNode (Node.folder md cd) nsrc freshId] := by
    rw [pushChildAndSize_childrenD]
    exact hupd
  -- conjunct 4
  have hC4 : walkPath (splitPath destPath
        ++ [(pastedNode (Node.folder md cd) nsrc freshId).name])
      (pasteItem (copyItem s srcPath).1 destPath freshId now).1.tree
      = some (pastedNode (Node.folder md cd) nsrc freshId) := by
    rw [walkPath_append]
    have : walkPath (splitPath destPath)
        (pasteItem (copyItem s srcPath).1 destPath freshId now).1.tree
        = some (pushChildAndSize (pastedNode (Node.folder md cd) nsrc freshId) now
          (Node.folder md cd)) := hC2
    rw [this]
    simp only [Option.some_bind, hpush, walkPath]
    rw [find?_append_none _ cd _ hfindNN]
    have hpn : ((pastedNode (Node.folder md cd) nsrc freshId).name ==
        (pastedNode (Node.folder md cd) nsrc freshId).name) = true := by simp
    simp only [List.find?, hpn]
  -- conjunct 1
  have hC1 : getNodeByPath (pasteItem (copyItem s srcPath).1 destPath freshId now).1.tree
      srcPath = some nsrc := by
    rw [htree]
    cases hld : leadsB (splitPath destPath) (splitPath srcPath) with
    | false =>
      have hdiv := divergeB_of_not_leads _ _ hld hnl
      show walkPath (splitPath srcPath) _ = some nsrc
      rw [walkPath_modifyAtPath_diverge _ (pushChildAndSize_name _ now) _ _ _ hdiv]
      exact h1
    | true =>
      obtain ⟨r, hr⟩ := leadsB_exists _ _ hld
      cases r with
      | nil =>
        rw [List.append_nil] at hr
        rw [hr, leadsB_refl] at hnl
        exact absurd hnl (by simp)
      | cons q qs =>
        have h1' := h1
        show walkPath (splitPath srcPath) _ = some nsrc
        rw [getNodeByPath] at h1'
        rw [hr, walkPath_append] at h1' ⊢
        have h3w : walkPath (splitPath destPath) s.tree = some (Node.folder md cd) := h3
        rw [h3w] at h1'
        simp only [Option.some_bind] at h1'
        have h2w := walkPath_modifyAtPath (splitPath destPath)
          (pushChildAndSize (pastedNode (Node.folder md cd) nsrc freshId) now)
          s.tree (Node.folder md cd) h3w (pushChildAndSize_name _ now _)
        rw [h2w]
        simp only [Option.some_bind, hpush, walkPath] at h1' ⊢
        cases hq : cd.find? (fun c => c.name == q) with
        | none => rw [hq] at h1'; simp at h1'
        | some c =>
          rw [hq] at h1'
          rw [find?_append_some _ cd _ c hq]
          exact h1'
  -- the pasted path and the source path branch apart
  have hdivPS : divergeB (splitPath destPath
      ++ [(pastedNode (Node.folder md cd) nsrc freshId).name]) (splitPath srcPath)
      = true := by
    cases hld : leadsB (splitPath destPath) (splitPath srcPath) with
    | false =>
      exact divergeB_append_left _ _ _ (divergeB_of_not_leads _ _ hld hnl)
    | true =>
      obtain ⟨r, hr⟩ := leadsB_exists _ _ hld
      cases r with
      | nil =>
        rw [List.append_nil] at hr
        rw [hr, leadsB_refl] at hnl
        exact absurd hnl (by simp)
      | cons q qs =>
        have h1' := h1
        rw [getNodeByPath, hr, walkPath_append] at h1'
        have h3w : walkPath (splitPath destPath) s.tree = some (Node.folder md cd) := h3
        rw [h3w] at h1'
        simp only [Option.some_bind, walkPath] at h1'
        cases hq : cd.find? (fun c => c.name == q) with
        | none => rw [hq] at h1'; simp at h1'
        | some c =>
          have hcq : c.name = q := by
            have := List.find?_some hq
            simpa using this
          have hne : (pastedNode (Node.folder md cd) nsrc freshId).name ≠ q := by
            intro he
            apply hu'
            rw [← pastedNode_name (Node.folder md cd) nsrc freshId, he, ← hcq]
            exact List.mem_map_of_mem Node.name (List.mem_of_find?_eq_some hq)
          rw [hr]
          exact divergeB_append_cons _ _ _ _ _ hne
  -- conjunct 5
  have hC5 : ∀ g : Node → Node, (∀ x, (g x).name = x.name) →
      getNodeByPath (modifyAtPath
        (splitPath destPath ++ [(pastedNode (Node.folder md cd) nsrc freshId).name]) g
        (pasteItem (copyItem s srcPath).1 destPath freshId now).1.tree) srcPath
      = some nsrc := by
    intro g hg
    show walkPath (splitPath srcPath) _ = some nsrc
    rw [walkPath_modifyAtPath_diverge g hg _ _ _ hdivPS]
    exact hC1
  -- the source path and the pasted path branch apart (other direction)
  have hnl1 : leadsB (splitPath destPath
      ++ [(pastedNode (Node.folder md cd) nsrc freshId).name]) (splitPath srcPath)
      = false := by
    cases hc : leadsB (splitPath destPath
        ++ [(pastedNode (Node.folder md cd) nsrc freshId).name]) (splitPath srcPath) with
    | false => rfl
    | true =>
      obtain ⟨r, hr⟩ := leadsB_exists _ _ hc
      have h1' := h1
      rw [getNodeByPath, hr, walkPath_append, walkPath_append] at h1'
      have h3w : walkPath (splitPath destPath) s.tree = some (Node.folder md cd) := h3
      rw [h3w] at h1'
      simp only [Option.some_bind, walkPath] at h1'
      rw [hfindNN] at h1'
      simp at h1'
  have hnl2 : leadsB (splitPath srcPath) (splitPath destPath
      ++ [(pastedNode (Node.folder md cd) nsrc freshId).name]) = false := by
    cases hc : leadsB (splitPath srcPath) (splitPath destPath
        ++ [(pastedNode (Node.folder md cd) nsrc freshId).name]) with
    | false => rfl
    | true =>
      rcases leadsB_snoc _ _ _ hc with hl | he
      · rw [hl] at hnl; exact absurd hnl (by simp)
      · have h1' := h1
        rw [getNodeByPath, he, walkPath_append] at h1'
        have h3w : walkPath (splitPath destPath) s.tree = some (Node.folder md cd) := h3
        rw [h3w] at h1'
        simp only [Option.some_bind, walkPath] at h1'
        rw [hfindNN] at h1'
        simp at h1'
  have hdivSP : divergeB (splitPath srcPath) (splitPath destPath
      ++ [(pastedNode (Node.folder md cd) nsrc freshId).name]) = true :=
    divergeB_of_not_leads _ _ hnl2 hnl1
  -- conjunct 6
  have hC6 : ∀ g : Node → Node, (∀ x, (g x).name = x.name) →
      walkPath (splitPath destPath ++ [(pastedNode (Node.folder md cd) nsrc freshId).name])
        (modifyAtPath (splitPath srcPath) g
          (pasteItem (copyItem s srcPath).1 destPath freshId now).1.tree)
      = some (pastedNode (Node.folder md cd) nsrc freshId) := by
    intro g hg
    rw [walkPath_modifyAtPath_diverge g hg _ _ _ hdivSP]
    exact hC4
  exact ⟨hC1, hC2, hC3, hC4, hC5, hC6⟩

end VFS

namespace VFS

/-- C7 counterexample: the unqualified claim fails, and both carve-outs of
the amendment are necessary. (i) Destination inside the source subtree:
pasting the copied folder `d` into `/d` itself changes the subtree at the
source path `/d` (it gains the pasted child). (ii) Size-consistency: on a
stale-size tree — `sizeOk` is false because the empty folder `e` inside the
source stores size 999 — pasting into `/`, a destination that is *not*
inside the source subtree (the non-prefix side condition holds), succeeds
but reruns `updateFolderSize` over the destination and thereby rewrites the
stale size stored inside the source subtree, so `/d` no longer resolves to
the old node. -/
theorem c7_counterexample_paste_changes_source :
    (getNodeByPath exampleSelfPasteState.tree "/d"
        = some (.folder (exampleMeta "d1" "d" 0) []) ∧
      getNodeByPath (pasteItem exampleSelfPasteState "/d" "n7" 4).1.tree "/d"
        ≠ some (.folder (exampleMeta "d1" "d" 0) [])) ∧
    (sizeOk exampleStaleState.tree = false ∧
      leadsB (splitPath "/d") (splitPath "/") = false ∧
      getNodeByPath exampleStaleState.tree "/d" = some exampleStaleD ∧
      (pasteItem exampleStaleState "/" "n8" 5).2.isErr = false ∧
      getNodeByPath (pasteItem exampleStaleState "/" "n8" 5).1.tree "/d"
        ≠ some exampleStaleD) := by
  decide

/-- C7 witness: on the concrete session whose clipboard copies `/x.txt` and
whose destination is the root `/`, the amended theorem applies and the
source still resolves to the original file after the paste. -/
theorem c7_witness :
    getNodeByPath (pasteItem (copyItem examplePasteState "/x.txt").1 "/" "n9" 7).1.tree
        "/x.txt" = some exampleFileX :=
  (c7_amended_copy_paste_independent examplePasteState exampleFileX
    (.folder (exampleMeta "root" "/" 2) [exampleFileX]) "/x.txt" "/" "n9" 7
    (by decide) (by decide) (by decide) (by decide) (by decide) (by decide)
    (by decide) (by decide)).1

end VFS

namespace VFS

mutual

/-- Whatever `findById` returns carries the searched id and belongs to the
subtree listing. -/
theorem findById_mem : ∀ (t : Node) (k : String) (x : Node),
    findById k t = some x → x.id = k ∧ x ∈ getAllNodes t
  | .file m c, k, x => by
    intro h
    simp only [findById] at h
    cases hb : (m.id == k) with
    | false => rw [hb] at h; simp at h
    | true =>
      rw [hb] at h
      simp at h
      subst h
      exact ⟨by simpa [Node.id, Node.meta] using eq_of_beq hb, by simp [getAllNodes]⟩
  | .folder m cs, k, x => by
    intro h
    simp only [findById] at h
    cases hb : (m.id == k) with
    | true =>
      rw [hb] at h
      simp at h
      subst h
      exact ⟨by simpa [Node.id, Node.meta] using eq_of_beq hb, by simp [getAllNodes]⟩
    | false =>
      rw [hb] at h
      simp at h
      obtain ⟨h1, h2⟩ := findByIdL_mem cs k x h
      exact ⟨h1, by simp [getAllNodes]; exact Or.inr h2⟩

/-- List version of `findById_mem`. -/
theorem findByIdL_mem : ∀ (cs : List Node) (k : String) (x : Node),
    findByIdL k cs = some x → x.id = k ∧ x ∈ getAllNodesL cs
  | [], k, x => by intro h; simp [findByIdL] at h
  | c :: cs, k, x => by
    intro h
    simp only [findByIdL] at h
    cases hc : findById k c with
    | some y =>
      rw [hc] at h
      simp at h
      subst h
      obtain ⟨h1, h2⟩ := findById_mem c k y hc
      exact ⟨h1, by simp [getAllNodesL]; exact Or.inl h2⟩
    | none =>
      rw [hc] at h
      simp at h
      obtain ⟨h1, h2⟩ := findByIdL_mem cs k x h
      exact ⟨h1, by simp [getAllNodesL]; exact Or.inr h2⟩

end

mutual

/-- `findById` misses exactly the ids that do not occur in the subtree. -/
theorem findById_eq_none : ∀ (t : Node) (k : String),
    findById k t = none ↔ k ∉ (getAllNodes t).map Node.id
  | .file m c, k => by
    simp only [findById, getAllNodes]
    cases hb : (m.id == k) with
    | true =>
      have := eq_of_beq hb
      simp [this, Node.id, Node.meta]
    | false =>
      have := beq_eq_false_iff_ne.mp hb
      simp [Node.id, Node.meta]
      exact fun he => absurd he.symm this
  | .folder m cs, k => by
    simp only [findById, getAllNodes]
    cases hb : (m.id == k) with
    | true =>
      have := eq_of_beq hb
      simp [this, Node.id, Node.meta]
    | false =>
      have hne := beq_eq_false_iff_ne.mp hb
      simp only [Bool.false_eq_true, if_false, List.map_cons, List.mem_cons]
      rw [findByIdL_eq_none cs k]
      constructor
      · intro h hk
        rcases hk with hk | hk
        · exact hne (by simpa [Node.id, Node.meta] using hk.symm)
        · exact h hk
      · intro h hk
        exact h (Or.inr hk)

/-- List version of `findById_eq_none`. -/
theorem findByIdL_eq_none : ∀ (cs : List Node) (k : String),
    findByIdL k cs = none ↔ k ∉ (getAllNodesL cs).map Node.id
  | [], k => by simp [findByIdL, getAllNodesL]
  | c :: cs, k => by
    simp only [findByIdL, getAllNodesL, List.map_append, List.mem_append]
    cases hc : findById k c with
    | some y =>
      simp only []
      constructor
      · intro h; exact absurd h (by simp)
      · intro h
        exfalso
        obtain ⟨h1, h2⟩ := findById_mem c k y hc
        exact h (Or.inl (h1 ▸ List.mem_map_of_mem Node.id h2))
    | none =>
      simp only []
      rw [findByIdL_eq_none cs k]
      have hcnone := (findById_eq_none c k).mp hc
      constructor
      · intro h hk
        rcases hk with hk | hk
        · exact hcnone hk
        · exact h hk
      · intro h hk
        exact h (Or.inr hk)

end

mutual

/-- Under globally distinct ids, every listed node is found by its id. -/
theorem findById_of_mem : ∀ (t : Node),
    ((getAllNodes t).map Node.id).Nodup →
    ∀ n ∈ getAllNodes t, findById n.id t = some n
  | .file m c => by
    intro _ n hn
    simp [getAllNodes] at hn
    subst hn
    simp [findById, Node.id, Node.meta]
  | .folder m cs => by
    intro hnod n hn
    have hmap : (getAllNodes (Node.folder m cs)).map Node.id
        = m.id :: (getAllNodesL cs).map Node.id := by
      simp [getAllNodes, Node.id, Node.meta]
    rw [hmap] at hnod
    simp only [getAllNodes, List.mem_cons] at hn
    rcases hn with rfl | hn
    · simp [findById, Node.id, Node.meta]
    · have hne : m.id ∉ (getAllNodesL cs).map Node.id := (List.nodup_cons.mp hnod).1
      have hnid : n.id ∈ (getAllNodesL cs).map Node.id := List.mem_map_of_mem Node.id hn
      have hb : (m.id == n.id) = false := by
        rw [beq_eq_false_iff_ne]
        intro he; exact hne (he ▸ hnid)
      simp only [findById, hb, Bool.false_eq_true, if_false]
      exact findByIdL_of_mem cs (List.nodup_cons.mp hnod).2 n hn

/-- List version of `findById_of_mem`. -/
theorem findByIdL_of_mem : ∀ (cs : List Node),
    ((getAllNodesL cs).map Node.id).Nodup →
    ∀ n ∈ getAllNodesL cs, findByIdL n.id cs = some n
  | [] => by intro _ n hn; simp [getAllNodesL] at hn
  | c :: cs => by
    intro hnod n hn
    have hmap : (getAllNodesL (c :: cs)).map Node.id
        = (getAllNodes c).map Node.id ++ (getAllNodesL cs).map Node.id := by
      simp [getAllNodesL]
    rw [hmap] at hnod
    simp only [getAllNodesL, List.mem_append] at hn
    rcases hn with hn | hn
    · have := findById_of_mem c (hnod.of_append_left) n hn
      simp [findByIdL, this]
    · cases hf : findById n.id c with
      | none =>
        simp only [findByIdL, hf]
        exact findByIdL_of_mem cs (hnod.of_append_right) n hn
      | some y =>
        exfalso
        obtain ⟨hy1, hy2⟩ := findById_mem c n.id y hf
        have h1 : n.id ∈ (getAllNodes c).map Node.id :=
          hy1 ▸ List.mem_map_of_mem Node.id hy2
        have h2 : n.id ∈ (getAllNodesL cs).map Node.id :=
          List.mem_map_of_mem Node.id hn
        exact (List.disjoint_of_nodup_append hnod) h1 h2

end

/-- A file's full listing is just itself. -/
theorem getAllNodes_of_file (n : Node) (h : n.isFolder = false) :
    getAllNodes n = [n] := by
  cases n with
  | file m c => rfl
  | folder m cs => simp [Node.isFolder] at h

/-- Searching a file for a different id yields nothing. -/
theorem findById_file_ne (n : Node) (k : String) (hf : n.isFolder = false)
    (hk : n.id ≠ k) : findById k n = none := by
  cases n with
  | file m c =>
    have hb : (m.id == k) = false := by
      rw [beq_eq_false_iff_ne]; exact hk
    simp [findById, hb]
  | folder m cs => simp [Node.isFolder] at hf

/-- Searching a file for its own id yields the file. -/
theorem findById_file_self (n : Node) (hf : n.isFolder = false) :
    findById n.id n = some n := by
  cases n with
  | file m c => simp [findById, Node.id, Node.meta]
  | folder m cs => simp [Node.isFolder] at hf

/-- Corruption keeps the node's id. -/
theorem corruptOneFile_id (rng : CorruptRng) (i : Nat) (n : Node) :
    (corruptOneFile rng i n).id = n.id := by
  cases n <;> rfl

/-- Corruption keeps the node's kind. -/
theorem corruptOneFile_isFolder (rng : CorruptRng) (i : Nat) (n : Node) :
    (corruptOneFile rng i n).isFolder = n.isFolder := by
  cases n <;> rfl

mutual

/-- Replacing the first occurrence of id `j` by a file `r` carrying the same
id: the success flag matches `findById`, a miss leaves the tree unchanged,
the pre-order id listing is preserved, any other id that resolved to a file
still resolves to the same file, and on a hit `j` now resolves to `r` —
provided the node `j` resolves to is itself a file. -/
theorem replaceById_spec (j : String) (r : Node) (hrid : r.id = j)
    (hrf : r.isFolder = false) :
    ∀ t : Node, (∀ x, findById j t = some x → x.isFolder = false) →
      (replaceByIdN j r t).2 = (findById j t).isSome ∧
      ((findById j t).isSome = false → (replaceByIdN j r t).1 = t) ∧
      (getAllNodes (replaceByIdN j r t).1).map Node.id
        = (getAllNodes t).map Node.id ∧
      (∀ k, k ≠ j → ∀ x, findById k t = some x → x.isFolder = false →
        findById k (replaceByIdN j r t).1 = some x) ∧
      ((findById j t).isSome = true → findById j (replaceByIdN j r t).1 = some r)
  | .file m c => by
    intro hx
    cases hb : (m.id == j) with
    | true =>
      have hmj : m.id = j := eq_of_beq hb
      have hfj : findById j (.file m c) = some (.file m c) := by
        simp [findById, hb]
      have hrw1 : (replaceByIdN j r (.file m c)).1 = r := by
        simp [replaceByIdN, hb]
      have hrw2 : (replaceByIdN j r (.file m c)).2 = true := by
        simp [replaceByIdN, hb]
      rw [hrw1, hrw2, hfj]
      refine ⟨rfl, by intro h; simp at h, ?_, ?_, ?_⟩
      · rw [getAllNodes_of_file r hrf, getAllNodes_of_file (.file m c) rfl]
        simp only [List.map_cons, List.map_nil]
        rw [hrid]
        show [j] = [m.id]
        rw [hmj]
      · intro k hk x hxk hxf
        have hnone : findById k (Node.file m c) = none := by
          apply findById_file_ne (Node.file m c) k rfl
          show m.id ≠ k
          rw [hmj]; exact fun he => hk he.symm
        rw [hnone] at hxk
        exact absurd hxk (by simp)
      · intro _
        have := findById_file_self r hrf
        rw [hrid] at this
        exact this
    | false =>
      have hfj : findById j (.file m c) = none := by
        simp [findById, hb]
      have hrw1 : (replaceByIdN j r (.file m c)).1 = .file m c := by
        simp [replaceByIdN, hb]
      have hrw2 : (replaceByIdN j r (.file m c)).2 = false := by
        simp [replaceByIdN, hb]
      rw [hrw1, hrw2, hfj]
      exact ⟨rfl, fun _ => rfl, rfl, fun k hk x hxk hxf => hxk, by intro h; simp at h⟩
  | .folder m cs => by
    intro hx
    cases hb : (m.id == j) with
    | true =>
      exfalso
      have hsome : findById j (.folder m cs) = some (.folder m cs) := by
        simp [findById, hb]
      have := hx _ hsome
      simp [Node.isFolder] at this
    | false =>
      have hfj : findById j (.folder m cs) = findByIdL j cs := by
        simp [findById, hb]
      have hxl : ∀ x, findByIdL j cs = some x → x.isFolder = false := by
        intro x h; exact hx x (hfj ▸ h)
      obtain ⟨l1, l2, l3, l4, l5⟩ := replaceByIdL_spec j r hrid hrf cs hxl
      have hrw1 : (replaceByIdN j r (.folder m cs)).1
          = .folder m (replaceByIdL j r cs).1 := by
        simp [replaceByIdN, hb]
      have hrw2 : (replaceByIdN j r (.folder m cs)).2 = (replaceByIdL j r cs).2 := by
        simp [replaceByIdN, hb]
      rw [hrw1, hrw2, hfj]
      refine ⟨l1, ?_, ?_, ?_, ?_⟩
      · intro h; rw [l2 h]
      · simp only [getAllNodes, List.map_cons]
        rw [l3]
        rfl
      · intro k hk x hxk hxf
        by_cases hbk : (m.id == k) = true
        · have hsome : findById k (Node.folder m cs) = some (.folder m cs) := by
            simp [findById, hbk]
          rw [hsome] at hxk
          cases hxk
          simp [Node.isFolder] at hxf
        · have hbk' : (m.id == k) = false := by
            cases hmk : (m.id == k) with
            | true => exact absurd hmk hbk
            | false => rfl
          have h1 : findById k (Node.folder m cs) = findByIdL k cs := by
            simp [findById, hbk']
          have h2 : findById k (Node.folder m (replaceByIdL j r cs).1)
              = findByIdL k (replaceByIdL j r cs).1 := by
            simp [findById, hbk']
          rw [h1] at hxk
          rw [h2]
          exact l4 k hk x hxk hxf
      · intro h
        have h2 : findById j (Node.folder m (replaceByIdL j r cs).1)
            = findByIdL j (replaceByIdL j r cs).1 := by
          simp [findById, hb]
        rw [h2]
        exact l5 h

/-- List version of `replaceById_spec`. -/
theorem replaceByIdL_spec (j : String) (r : Node) (hrid : r.id = j)
    (hrf : r.isFolder = false) :
    ∀ cs : List Node, (∀ x, findByIdL j cs = some x → x.isFolder = false) →
      (replaceByIdL j r cs).2 = (findByIdL j cs).isSome ∧
      ((findByIdL j cs).isSome = false → (replaceByIdL j r cs).1 = cs) ∧
      (getAllNodesL (replaceByIdL j r cs).1).map Node.id
        = (getAllNodesL cs).map Node.id ∧
      (∀ k, k ≠ j → ∀ x, findByIdL k cs = some x → x.isFolder = false →
        findByIdL k (replaceByIdL j r cs).1 = some x) ∧
      ((findByIdL j cs).isSome = true → findByIdL j (replaceByIdL j r cs).1 = some r)
  | [] => by
    intro _
    simp [replaceByIdL, findByIdL]
  | c :: cs => by
    intro hx
    have hxc : ∀ x, findById j c = some x → x.isFolder = false := by
      intro x h
      apply hx x
      simp [findByIdL, h]
    obtain ⟨n1, n2, n3, n4, n5⟩ := replaceById_spec j r hrid hrf c hxc
    cases hfc : findById j c with
    | some y =>
      have hfl : findByIdL j (c :: cs) = some y := by simp [findByIdL, hfc]
      have hflag : (replaceByIdN j r c).2 = true := by rw [n1, hfc]; rfl
      have hrw1 : (replaceByIdL j r (c :: cs)).1 = (replaceByIdN j r c).1 :: cs := by
        simp only [replaceByIdL]
        cases hrb : replaceByIdN j r c with
        | mk c' fl =>
          rw [hrb] at hflag
          simp at hflag
          subst hflag
          rfl
      have hrw2 : (replaceByIdL j r (c :: cs)).2 = true := by
        simp only [replaceByIdL]
        cases hrb : replaceByIdN j r c with
        | mk c' fl =>
          rw [hrb] at hflag
          simp at hflag
          subst hflag
          rfl
      rw [hrw1, hrw2, hfl]
      refine ⟨rfl, by intro h; simp at h, ?_, ?_, ?_⟩
      · simp only [getAllNodesL, List.map_append]
        rw [n3]
      · intro k hk x hxk hxf
        simp only [findByIdL] at hxk ⊢
        cases hkc : findById k c with
        | some z =>
          rw [hkc] at hxk
          simp at hxk
          subst hxk
          rw [n4 k hk z hkc hxf]
        | none =>
          rw [hkc] at hxk
          have hkc' : findById k (replaceByIdN j r c).1 = none := by
            rw [findById_eq_none] at hkc ⊢
            rw [n3]
            exact hkc
          rw [hkc']
          exact hxk
      · intro _
        have hcr := n5 (by rw [hfc]; rfl)
        simp [findByIdL, hcr]
    | none =>
      have hfl : findByIdL j (c :: cs) = findByIdL j cs := by
        simp [findByIdL, hfc]
      have hflag : (replaceByIdN j r c).2 = false := by rw [n1, hfc]; rfl
      have hc1 : (replaceByIdN j r c).1 = c := n2 (by rw [hfc]; rfl)
      have hxl : ∀ x, findByIdL j cs = some x → x.isFolder = false := by
        intro x h; exact hx x (hfl ▸ h)
      obtain ⟨t1, t2, t3, t4, t5⟩ := replaceByIdL_spec j r hrid hrf cs hxl
      have hrw1 : (replaceByIdL j r (c :: cs)).1
          = c :: (replaceByIdL j r cs).1 := by
        simp only [replaceByIdL]
        cases hrb : replaceByIdN j r c with
        | mk c' fl =>
          rw [hrb] at hflag hc1
          simp at hflag hc1
          subst hflag
          subst hc1
          rfl
      have hrw2 : (replaceByIdL j r (c :: cs)).2 = (replaceByIdL j r cs).2 := by
        simp only [replaceByIdL]
        cases hrb : replaceByIdN j r c with
        | mk c' fl =>
          rw [hrb] at hflag
          simp at hflag
          subst hflag
          rfl
      rw [hrw1, hrw2, hfl]
      refine ⟨t1, ?_, ?_, ?_, ?_⟩
      · intro h; rw [t2 h]
      · simp only [getAllNodesL, List.map_append]
        rw [t3]
      · intro k hk x hxk hxf
        simp only [findByIdL] at hxk ⊢
        cases hkc : findById k c with
        | some z =>
          rw [hkc] at hxk
          exact hxk
        | none =>
          rw [hkc] at hxk
          exact t4 k hk x hxk hxf
      · intro h
        have hcr := t5 h
        simp [findByIdL, hfc, hcr]

end

/-- In a list with distinct ids, every survivor of `eraseIdx` has an id
different from the erased entry's. -/
theorem eraseIdx_map_ne : ∀ (l : List Node) (i : Nat),
    (l.map Node.id).Nodup → (h : i < l.length) →
    ∀ p ∈ l.eraseIdx i, p.id ≠ (l.get ⟨i, h⟩).id
  | [], i => by
    intro _ h
    simp at h
  | c :: cs, 0 => by
    intro hnod h p hp
    simp only [List.eraseIdx] at hp
    simp only [List.get]
    have hne : c.id ∉ cs.map Node.id := (List.nodup_cons.mp (by simpa using hnod)).1
    intro he
    exact hne (he ▸ List.mem_map_of_mem Node.id hp)
  | c :: cs, i + 1 => by
    intro hnod h p hp
    simp only [List.eraseIdx, List.mem_cons] at hp
    simp only [List.get]
    have h' : i < cs.length := by simpa using Nat.lt_of_succ_lt_succ h
    rcases hp with rfl | hp
    · have hne : p.id ∉ cs.map Node.id := (List.nodup_cons.mp (by simpa using hnod)).1
      intro he
      exact hne (he ▸ List.mem_map_of_mem Node.id (List.get_mem cs _ _))
    · exact eraseIdx_map_ne cs i (List.nodup_cons.mp (by simpa using hnod)).2 h' p hp

/-- Restoring the erased entry in front of `eraseIdx` permutes back to the
original list. -/
theorem get_cons_eraseIdx_perm : ∀ (l : List Node) (i : Nat) (h : i < l.length),
    (l.get ⟨i, h⟩ :: l.eraseIdx i).Perm l
  | [], i, h => by simp at h
  | c :: cs, 0, _ => by simp [List.eraseIdx]
  | c :: cs, i + 1, h => by
    simp only [List.eraseIdx, List.get]
    have h' : i < cs.length := by simpa using Nat.lt_of_succ_lt_succ h
    exact (List.Perm.swap c (cs.get ⟨i, h'⟩) (cs.eraseIdx i)).trans
      ((get_cons_eraseIdx_perm cs i h').cons c)

/-- Invariant of the selection loop: with distinct pool ids and every pool
entry a live file of the tree, the loop selects `min k pool.length` entries,
drawn from the pool without replacement, preserves the pre-order id listing,
leaves every file whose id it did not select resolving to the same node, and
makes the `m`-th selected entry resolve to its corrupted image under the
draws of iteration `i + m`. -/
theorem corruptLoop_spec (rng : CorruptRng) : ∀ (k i : Nat) (pool : List Node) (t : Node),
    (pool.map Node.id).Nodup →
    (∀ p ∈ pool, p.isFolder = false ∧ findById p.id t = some p) →
    (corruptLoop rng k i pool t).2.length = min k pool.length ∧
    (corruptLoop rng k i pool t).2.Subperm pool ∧
    (getAllNodes (corruptLoop rng k i pool t).1).map Node.id
      = (getAllNodes t).map Node.id ∧
    (∀ q, q ∉ (corruptLoop rng k i pool t).2.map Node.id →
      ∀ x : Node, findById q t = some x → x.isFolder = false →
        findById q (corruptLoop rng k i pool t).1 = some x) ∧
    (∀ (pre post : List Node) (x : Node),
      (corruptLoop rng k i pool t).2 = pre ++ x :: post →
      findById x.id (corruptLoop rng k i pool t).1
        = some (corruptOneFile rng (i + pre.length) x)) := by
  intro k
  induction k with
  | zero =>
    intro i pool t hnod hlive
    have hstep : corruptLoop rng 0 i pool t = (t, []) := rfl
    rw [hstep]
    refine ⟨by simp, List.nil_subperm, rfl, ?_, ?_⟩
    · intro q hq x hx hxf; exact hx
    · intro pre post x hsel; simp at hsel
  | succ k IH =>
    intro i pool t hnod hlive
    cases pool with
    | nil =>
      have hstep : corruptLoop rng (k + 1) i [] t = (t, []) := rfl
      rw [hstep]
      refine ⟨by simp, List.nil_subperm, rfl, ?_, ?_⟩
      · intro q hq x hx hxf; exact hx
      · intro pre post x hsel; simp at hsel
    | cons c cs =>
      have hlen : 0 < (c :: cs).length := by simp
      have hidx : rng.indexPick i % (c :: cs).length < (c :: cs).length :=
        Nat.mod_lt _ hlen
      set idx := rng.indexPick i % (c :: cs).length with hidxdef
      set n := (c :: cs).getD idx c with hndef
      set t1 := (replaceByIdN n.id (corruptOneFile rng i n) t).1 with ht1def
      set rest := corruptLoop rng k (i + 1) ((c :: cs).eraseIdx idx) t1 with hrestdef
      have hstep1 : (corruptLoop rng (k + 1) i (c :: cs) t).1 = rest.1 := rfl
      have hstep2 : (corruptLoop rng (k + 1) i (c :: cs) t).2 = n :: rest.2 := rfl
      have hget : n = (c :: cs).get ⟨idx, hidx⟩ := by
        rw [hndef, List.getD_eq_getElem (c :: cs) c hidx]
        rfl
      have hnmem : n ∈ c :: cs := by
        rw [hget]; exact List.get_mem _ _ _
      obtain ⟨hnf, hlive_n⟩ := hlive n hnmem
      have hrid : (corruptOneFile rng i n).id = n.id := corruptOneFile_id rng i n
      have hrf : (corruptOneFile rng i n).isFolder = false := by
        rw [corruptOneFile_isFolder]; exact hnf
      have hhyp : ∀ x, findById n.id t = some x → x.isFolder = false := by
        intro x hxx
        rw [hlive_n] at hxx
        cases hxx
        exact hnf
      obtain ⟨s1, s2, s3, s4, s5⟩ :=
        replaceById_spec n.id (corruptOneFile rng i n) hrid hrf t hhyp
      have hfound : findById n.id t1 = some (corruptOneFile rng i n) := by
        rw [ht1def]
        exact s5 (by rw [hlive_n]; rfl)
      have hsub_er : List.Sublist ((c :: cs).eraseIdx idx) (c :: cs) := List.eraseIdx_sublist _ _
      have hnod' : (((c :: cs).eraseIdx idx).map Node.id).Nodup :=
        hnod.sublist (hsub_er.map Node.id)
      have hne_er : ∀ p ∈ (c :: cs).eraseIdx idx, p.id ≠ n.id := by
        intro p hp
        rw [hget]
        exact eraseIdx_map_ne (c :: cs) idx hnod hidx p hp
      have hlive' : ∀ p ∈ (c :: cs).eraseIdx idx,
          p.isFolder = false ∧ findById p.id t1 = some p := by
        intro p hp
        obtain ⟨hpf, hpl⟩ := hlive p (hsub_er.subset hp)
        refine ⟨hpf, ?_⟩
        rw [ht1def]
        exact s4 p.id (hne_er p hp) p hpl hpf
      obtain ⟨ih1, ih2, ih3, ih4, ih5⟩ := IH (i + 1) ((c :: cs).eraseIdx idx) t1 hnod' hlive'
      rw [← hrestdef] at ih1 ih2 ih3 ih4 ih5
      have hnotin : n.id ∉ rest.2.map Node.id := by
        intro hin
        obtain ⟨p, hp, hpe⟩ := List.mem_map.mp hin
        exact hne_er p (ih2.subset hp) hpe
      have hperm : (n :: (c :: cs).eraseIdx idx).Perm (c :: cs) := by
        rw [hget]; exact get_cons_eraseIdx_perm (c :: cs) idx hidx
      have hlen_er : ((c :: cs).eraseIdx idx).length = cs.length := by
        have := hperm.length_eq
        simpa using this
      refine ⟨?_, ?_, ?_, ?_, ?_⟩
      · rw [hstep2]
        simp only [List.length_cons]
        rw [ih1, hlen_er]
        simp [Nat.succ_min_succ]
      · rw [hstep2]
        exact ((List.subperm_cons n).mpr ih2).trans hperm.subperm
      · rw [hstep1, ih3, ht1def, s3]
      · intro q hq x hx hxf
        rw [hstep2] at hq
        rw [hstep1]
        simp only [List.map_cons, List.mem_cons] at hq
        push_neg at hq
        obtain ⟨hq1, hq2⟩ := hq
        have hmid : findById q t1 = some x := by
          rw [ht1def]; exact s4 q hq1 x hx hxf
        exact ih4 q hq2 x hmid hxf
      · intro pre post x hsel
        rw [hstep2] at hsel
        rw [hstep1]
        cases pre with
        | nil =>
          simp only [List.nil_append, List.cons.injEq] at hsel
          obtain ⟨heq, _⟩ := hsel
          subst heq
          have hres := ih4 n.id hnotin (corruptOneFile rng i n) hfound hrf
          simpa using hres
        | cons p pre' =>
          simp only [List.cons_append, List.cons.injEq] at hsel
          obtain ⟨heq, hsel2⟩ := hsel
          subst heq
          have hres := ih5 pre' post x hsel2
          have harith : i + 1 + pre'.length = i + (n :: pre').length := by
            simp only [List.length_cons]; omega
          rw [harith] at hres
          exact hres

/-- The byte-replacement loop never changes the array's length. -/
theorem applyCorruptOps_length (pp cp : Nat → Nat) (len : Nat) :
    ∀ (rem j : Nat) (arr : List Char),
      (applyCorruptOps pp cp len j rem arr).length = arr.length
  | 0, j, arr => rfl
  | rem + 1, j, arr => by
    rw [applyCorruptOps, applyCorruptOps_length pp cp len rem (j + 1) _]
    exact List.length_set arr _ _

/-- Corrupting content never changes its length (in characters). -/
theorem corruptContent_length (level : ℚ) (pp cp : Nat → Nat) (s : String) :
    (corruptContent level pp cp s).length = s.length := by
  simp only [corruptContent]
  show (String.mk _).length = s.length
  simp only [String.length]
  rw [applyCorruptOps_length]
  rfl

/-- `Rat.floor` agrees with the floor of the `FloorRing` instance. -/
theorem ratFloor_eq (q : ℚ) : q.floor = ⌊q⌋ := rfl

/-- The number of byte replacements drawn from a level in the `[0.2, 0.5)`
band is at least 20% and at most 50% of the content length. -/
theorem corruptOpsCount_bounds (r : ℚ) (hr0 : 0 ≤ r) (hr1 : r < 1) (len : Nat) :
    len / 5 ≤ corruptOpsCount (corruptLevel r) len ∧
      2 * corruptOpsCount (corruptLevel r) len ≤ len := by
  have hlev0 : (1 : ℚ) / 5 ≤ corruptLevel r := by
    rw [corruptLevel]; nlinarith
  have hlev1 : corruptLevel r < 1 / 2 := by
    rw [corruptLevel]; nlinarith
  have hx0 : (0 : ℚ) ≤ (len : ℚ) * corruptLevel r := by
    have : (0 : ℚ) ≤ corruptLevel r := le_trans (by norm_num) hlev0
    positivity
  have hfl0 : (0 : ℤ) ≤ ⌊(len : ℚ) * corruptLevel r⌋ :=
    Int.floor_nonneg.mpr hx0
  constructor
  · rw [corruptOpsCount, ratFloor_eq]
    rw [Int.le_toNat hfl0]
    rw [Int.le_floor]
    push_cast
    calc ((len / 5 : ℕ) : ℚ) ≤ (len : ℚ) / 5 := Nat.cast_div_le
    _ = (len : ℚ) * (1 / 5) := by ring
    _ ≤ (len : ℚ) * corruptLevel r := by
        have hc : (0 : ℚ) ≤ (len : ℚ) := by positivity
        exact mul_le_mul_of_nonneg_left hlev0 hc
  · rcases Nat.eq_zero_or_pos len with hz | hpos
    · subst hz
      have hzz : corruptOpsCount (corruptLevel r) 0 = 0 := by
        simp [corruptOpsCount, ratFloor_eq]
      rw [hzz]
    · have hk : ((corruptOpsCount (corruptLevel r) len : ℕ) : ℚ)
          ≤ (len : ℚ) * corruptLevel r := by
        rw [corruptOpsCount, ratFloor_eq]
        have h1 : ((⌊(len : ℚ) * corruptLevel r⌋.toNat : ℕ) : ℤ)
            = ⌊(len : ℚ) * corruptLevel r⌋ := Int.toNat_of_nonneg hfl0
        have h2 : ((⌊(len : ℚ) * corruptLevel r⌋.toNat : ℕ) : ℚ)
            = ((⌊(len : ℚ) * corruptLevel r⌋ : ℤ) : ℚ) := by
          exact_mod_cast congrArg (fun z : ℤ => (z : ℚ)) h1
        rw [h2]
        exact Int.floor_le _
      have hhalf : (len : ℚ) * corruptLevel r < (len : ℚ) / 2 := by
        have hc : (0 : ℚ) < (len : ℚ) := by exact_mod_cast hpos
        nlinarith
      have hlt : ((2 * corruptOpsCount (corruptLevel r) len : ℕ) : ℚ) < (len : ℚ) := by
        push_cast
        nlinarith
      have hfin : 2 * corruptOpsCount (corruptLevel r) len < len := by exact_mod_cast hlt
      omega

/-- C9: with no uncorrupted file, corrupt is a reported no-op; otherwise it
selects `min(floor(rand*3)+1, pool)` — between 1 and 3 — uncorrupted files,
drawn from the pool without replacement (distinct ids), reports their names,
and replaces each selected file in place by its corrupted image while every
unselected file still resolves to its old node; corrupting a file only sets
the corrupted flag and rewrites the content through `corruptContent`,
keeping size, permissions, name, id and content length, and the number of
byte replacements is between 20% and 50% of the content length. -/
theorem c9_corrupt_selects_and_preserves (rng : CorruptRng) (t : Node)
    (hids : ((getAllNodes t).map Node.id).Nodup) :
    ((uncorruptedFiles t).isEmpty = true → corruptRandomItems rng t = (t, .noFiles)) ∧
    ((uncorruptedFiles t).isEmpty = false →
      (corruptRandomItems rng t).2
        = .corrupted ((corruptSel rng t).map Node.name) ∧
      (corruptSel rng t).length
        = min (rng.countPick % 3 + 1) (uncorruptedFiles t).length ∧
      1 ≤ (corruptSel rng t).length ∧ (corruptSel rng t).length ≤ 3 ∧
      (corruptSel rng t).Subperm (uncorruptedFiles t) ∧
      ((corruptSel rng t).map Node.id).Nodup ∧
      (∀ n ∈ corruptSel rng t, n.isFile = true ∧ n.corrupted = false) ∧
      (∀ (pre post : List Node) (x : Node),
        corruptSel rng t = pre ++ x :: post →
        findById x.id (corruptRandomItems rng t).1
          = some (corruptOneFile rng pre.length x)) ∧
      (∀ n ∈ getAllNodes t, n.isFile = true →
        n.id ∉ (corruptSel rng t).map Node.id →
        findById n.id (corruptRandomItems rng t).1 = some n)) ∧
    (∀ (i : Nat) (m : Meta) (c : String),
      corruptOneFile rng i (.file m c)
        = .file { m with corrupted := true }
            (if c == "" then c
             else corruptContent (corruptLevel (rng.levelPick i)) (rng.posPick i)
                    (rng.charPick i) c)) ∧
    (∀ (i : Nat) (n : Node), n.isFile = true →
      (corruptOneFile rng i n).size = n.size ∧
      (corruptOneFile rng i n).perms = n.perms ∧
      (corruptOneFile rng i n).name = n.name ∧
      (corruptOneFile rng i n).id = n.id ∧
      (corruptOneFile rng i n).corrupted = true ∧
      (corruptOneFile rng i n).contentD.length = n.contentD.length) ∧
    (∀ r : ℚ, 0 ≤ r → r < 1 → ∀ len : Nat,
      len / 5 ≤ corruptOpsCount (corruptLevel r) len ∧
      2 * corruptOpsCount (corruptLevel r) len ≤ len) := by
  refine ⟨?_, ?_, ?_, ?_, corruptOpsCount_bounds⟩
  · intro h
    simp only [corruptRandomItems, h]
    simp
  · intro h
    have hpool_sub : List.Sublist (uncorruptedFiles t) (getAllNodes t) :=
      List.filter_sublist _
    have hnodp : ((uncorruptedFiles t).map Node.id).Nodup :=
      hids.sublist (hpool_sub.map Node.id)
    have hmemf : ∀ p ∈ uncorruptedFiles t, p.isFile = true ∧ p.corrupted = false := by
      intro p hp
      simp only [uncorruptedFiles] at hp
      have h2 := (List.mem_filter.mp hp).2
      simp at h2
      exact h2
    have hlive : ∀ p ∈ uncorruptedFiles t,
        p.isFolder = false ∧ findById p.id t = some p := by
      intro p hp
      obtain ⟨hf, _⟩ := hmemf p hp
      refine ⟨?_, findById_of_mem t hids p (hpool_sub.subset hp)⟩
      cases p with
      | file _ _ => rfl
      | folder _ _ => simp [Node.isFile] at hf
    obtain ⟨L1, L2, L3, L4, L5⟩ := corruptLoop_spec rng
      (min (rng.countPick % 3 + 1) (uncorruptedFiles t).length) 0
      (uncorruptedFiles t) t hnodp hlive
    have hsel : corruptSel rng t
        = (corruptLoop rng (min (rng.countPick % 3 + 1) (uncorruptedFiles t).length) 0
            (uncorruptedFiles t) t).2 := rfl
    rw [← hsel] at L1 L2 L4 L5
    have hpair : corruptRandomItems rng t
        = ((corruptLoop rng (min (rng.countPick % 3 + 1) (uncorruptedFiles t).length) 0
              (uncorruptedFiles t) t).1,
           .corrupted ((corruptSel rng t).map Node.name)) := by
      simp only [corruptRandomItems, h]
      simp only [Bool.false_eq_true, if_false]
      rw [hsel]
    have hres1 : (corruptRandomItems rng t).1
        = (corruptLoop rng (min (rng.countPick % 3 + 1) (uncorruptedFiles t).length) 0
            (uncorruptedFiles t) t).1 := by
      rw [hpair]
    have hL : 0 < (uncorruptedFiles t).length := by
      cases hp : uncorruptedFiles t with
      | nil => rw [hp] at h; simp at h
      | cons a as => simp [hp]
    have hmod : rng.countPick % 3 < 3 := Nat.mod_lt _ (by norm_num)
    refine ⟨?_, ?_, ?_, ?_, L2, ?_, ?_, ?_, ?_⟩
    · rw [hpair]
    · rw [L1]
      omega
    · rw [L1]
      omega
    · rw [L1]
      omega
    · obtain ⟨w, hwp, hws⟩ := L2
      have h1 : (w.map Node.id).Nodup := hnodp.sublist (hws.map Node.id)
      exact (hwp.map Node.id).nodup h1
    · intro n hn
      exact hmemf n (L2.subset hn)
    · intro pre post x hx
      rw [hres1]
      have := L5 pre post x hx
      simpa using this
    · intro n hn hf hni
      rw [hres1]
      have hfn : findById n.id t = some n := findById_of_mem t hids n hn
      have hff : n.isFolder = false := by
        cases n with
        | file _ _ => rfl
        | folder _ _ => simp [Node.isFile] at hf
      exact L4 n.id hni n hfn hff
  · intro i m c
    rfl
  · intro i n hn
    cases n with
    | folder m cs => simp [Node.isFile] at hn
    | file m c =>
      refine ⟨rfl, rfl, rfl, rfl, rfl, ?_⟩
      show (if c == "" then c
          else corruptContent (corruptLevel (rng.levelPick i)) (rng.posPick i)
            (rng.charPick i) c).length = c.length
      cases hcc : (c == "") with
      | true => simp [hcc]
      | false => simp [hcc, corruptContent_length]

/-- C9 witness: on the concrete root-with-one-file tree and the concrete
draw stream, corrupt reports the names of the selected files. -/
theorem c9_witness :
    (corruptRandomItems exCorruptRng
        (Node.folder (exampleMeta "root" "/" 2) [exampleFileX])).2
      = CorruptReport.corrupted ((corruptSel exCorruptRng
          (Node.folder (exampleMeta "root" "/" 2) [exampleFileX])).map Node.name) :=
  ((c9_corrupt_selects_and_preserves exCorruptRng
    (Node.folder (exampleMeta "root" "/" 2) [exampleFileX]) (by decide)).2.1
      (by decide)).1

end VFS
